import Mathlib

/-!
Verification of the Markdown-to-DOCX export module (`export_doc_func.py`).

This file shallowly embeds the pure core of the module: the URL normalizer,
the inline span resolver, the inline-code emitter, the citation reference
builder, the table column-width layout, the block assembler's line loop, the
mermaid placeholder seed computation and the size-limited fetch helpers.
Strings are modelled as `List Char`; Python character classes are modelled on
their ASCII fragment (every input appearing in the claims is ASCII).
Side-effecting `docx` calls are modelled as emitted events.
-/

namespace ExportDoc

/-- ASCII fragment of Python `str.isspace` / the default `str.strip` class. -/
def pyIsSpace (c : Char) : Bool :=
  c == ' ' || c == '\t' || c == '\n' || c == '\r' || c == '\x0b' || c == '\x0c'

/-- Python `str.isdigit`, ASCII fragment. -/
def pyIsDigit (c : Char) : Bool :=
  '0' ≤ c && c ≤ '9'

/-- Python `str.isalnum`, ASCII fragment. -/
def pyIsAlnum (c : Char) : Bool :=
  pyIsDigit c || ('a' ≤ c && c ≤ 'z') || ('A' ≤ c && c ≤ 'Z')

/-- ASCII lower-casing of one character (fragment of Python `str.lower`). -/
def pyLowerChar (c : Char) : Char :=
  if 'A' ≤ c && c ≤ 'Z' then Char.ofNat (c.toNat + 32) else c

/-- Python `s.lstrip()` on the character list of `s`. -/
def lstripChars (l : List Char) : List Char :=
  l.dropWhile pyIsSpace

/-- Python `s.rstrip()` on the character list of `s`
(`List.rdropWhile` drops the trailing characters satisfying the predicate). -/
def rstripChars (l : List Char) : List Char :=
  l.rdropWhile pyIsSpace

/-- Python `s.strip()` on the character list of `s`. -/
def stripChars (l : List Char) : List Char :=
  rstripChars (lstripChars l)

/-- The trailing-punctuation set `.,;:!?)]\x7d` used by `_normalize_url` and
the autolink trimmers. -/
def trailPunct (c : Char) : Bool :=
  c == '.' || c == ',' || c == ';' || c == ':' || c == '!' || c == '?' ||
  c == ')' || c == ']' || c == '\x7d'

/-- `u.lower().startswith("www.")` from `_normalize_url`. -/
def lowerStartsWithWWW (l : List Char) : Bool :=
  (l.take 4).map pyLowerChar == ['w', 'w', 'w', '.']

/-- `_normalize_url` (src/export_doc_func.py:2331-2338) on character lists:
strip surrounding whitespace, prepend `https://` to a `www.` URL, then trim
trailing sentence punctuation. -/
def normalizeUrlChars (l : List Char) : List Char :=
  let u := stripChars l
  let u := if lowerStartsWithWWW u then "https://".data ++ u else u
  u.rdropWhile trailPunct

/-- `_normalize_url` on `String`. -/
def normalizeUrl (s : String) : String :=
  ⟨normalizeUrlChars s.data⟩

lemma head?_eq_of_isPrefixOf {r v : List Char} (h : r <+: v) (hr : r ≠ []) :
    r.head? = v.head? := by
  obtain ⟨t, rfl⟩ := h
  cases r with
  | nil => exact absurd rfl hr
  | cons a l => rfl

lemma getLast?_rdropWhile (p : Char → Bool) (l : List Char) :
    ∀ c ∈ (l.rdropWhile p).getLast?, p c = false := by
  intro c hc
  by_cases h : l.rdropWhile p = []
  · simp [h] at hc
  · rw [List.getLast?_eq_getLast _ h, Option.mem_def, Option.some.injEq] at hc
    have hnot := List.rdropWhile_last_not p l h
    subst hc
    simpa using hnot

lemma rdropWhile_eq_self_of_getLast? {p : Char → Bool} {l : List Char}
    (h : ∀ c ∈ l.getLast?, p c = false) : l.rdropWhile p = l := by
  rw [List.rdropWhile_eq_self_iff]
  intro hl
  have hmem : l.getLast hl ∈ l.getLast? := by
    rw [List.getLast?_eq_getLast _ hl]; rfl
  have := h _ hmem
  simp [this]

lemma lowerStartsWithWWW_of_isPrefixOf {r v : List Char} (hpre : r <+: v)
    (hr : lowerStartsWithWWW r = true) : lowerStartsWithWWW v = true := by
  obtain ⟨t, rfl⟩ := hpre
  have hlen : 4 ≤ r.length := by
    by_contra hlt
    push_neg at hlt
    rw [lowerStartsWithWWW, List.take_of_length_le (by omega), beq_iff_eq] at hr
    have := congrArg List.length hr
    simp at this
    omega
  rw [lowerStartsWithWWW, beq_iff_eq] at hr ⊢
  rw [List.take_append_eq_append_take, Nat.sub_eq_zero_of_le hlen, List.take_zero,
    List.append_nil]
  exact hr

lemma normalizeUrlChars_last_not_punct (l : List Char) :
    ∀ c ∈ (normalizeUrlChars l).getLast?, trailPunct c = false := by
  unfold normalizeUrlChars
  exact getLast?_rdropWhile _ _

lemma normalizeUrlChars_no_www (l : List Char) :
    ¬ ("www.".data <+: normalizeUrlChars l) := by
  intro hpre
  unfold normalizeUrlChars at hpre
  set v := stripChars l with hv
  by_cases hw : lowerStartsWithWWW v
  · simp only [hw, if_pos] at hpre
    have h2 : "www.".data <+: ("https://".data ++ v) :=
      hpre.trans (List.rdropWhile_prefix _ _)
    obtain ⟨t, ht⟩ := h2
    simp at ht
  · simp only [hw, if_neg, Bool.not_eq_true, if_false] at hpre
    have h2 : "www.".data <+: v := hpre.trans (List.rdropWhile_prefix _ _)
    have : lowerStartsWithWWW v = true :=
      lowerStartsWithWWW_of_isPrefixOf h2 (by decide)
    simp [this] at hw

lemma head?_stripChars (l : List Char) (h : stripChars l ≠ []) :
    (stripChars l).head? = (l.dropWhile pyIsSpace).head? := by
  unfold stripChars rstripChars lstripChars at h ⊢
  exact head?_eq_of_isPrefixOf (List.rdropWhile_prefix _ _) h

lemma normalizeUrlChars_head_not_space (l : List Char) :
    ∀ c ∈ (normalizeUrlChars l).head?, pyIsSpace c = false := by
  intro c hc
  unfold normalizeUrlChars at hc
  by_cases hw : lowerStartsWithWWW (stripChars l)
  · simp only [hw, if_pos] at hc
    have hw0 : ("https://".data ++ stripChars l).rdropWhile trailPunct ≠ [] := by
      intro hnil
      rw [hnil] at hc; simp at hc
    rw [head?_eq_of_isPrefixOf (List.rdropWhile_prefix _ _) hw0] at hc
    simp only [List.head?, Option.mem_def] at hc
    cases hc
    decide
  · simp only [hw, if_neg, Bool.not_eq_true, if_false] at hc
    have hw0 : (stripChars l).rdropWhile trailPunct ≠ [] := by
      intro hnil
      rw [hnil] at hc; simp at hc
    rw [head?_eq_of_isPrefixOf (List.rdropWhile_prefix _ _) hw0] at hc
    have hs0 : stripChars l ≠ [] := by
      intro hnil
      rw [hnil] at hw0
      simp [List.rdropWhile] at hw0
    rw [head?_stripChars l hs0] at hc
    by_cases hz : l.dropWhile pyIsSpace = []
    · rw [hz] at hc; simp at hc
    · rw [List.head?_eq_head hz, Option.mem_def, Option.some.injEq] at hc
      have hnot := List.head_dropWhile_not pyIsSpace l hz
      subst hc
      simpa using hnot

/-- C10 counterexample: `_normalize_url` is not idempotent.  On input
`"a ."` the trailing-punctuation trim exposes an internal space
(`"a ."` normalizes to `"a "`), and a second application strips that space
(`"a "` normalizes to `"a"`). -/
theorem normalize_url_not_idempotent :
    normalizeUrl (normalizeUrl "a .") ≠ normalizeUrl "a ." := by
  intro h
  have h2 := congrArg String.data h
  revert h2
  decide

lemma normalizeUrlChars_no_www_start (l : List Char) :
    lowerStartsWithWWW (normalizeUrlChars l) = false := by
  by_contra hb
  rw [Bool.not_eq_false] at hb
  unfold normalizeUrlChars at hb
  by_cases hw : lowerStartsWithWWW (stripChars l)
  · simp only [hw, if_pos] at hb
    have hp : ("https://".data ++ stripChars l).rdropWhile trailPunct
        <+: ("https://".data ++ stripChars l) := List.rdropWhile_prefix _ _
    have h2 := lowerStartsWithWWW_of_isPrefixOf hp hb
    rw [lowerStartsWithWWW, List.take_append_eq_append_take] at h2
    simp at h2
    exact absurd h2.1 (by decide)
  · simp only [hw, if_neg, Bool.not_eq_true, if_false] at hb
    have hp : (stripChars l).rdropWhile trailPunct <+: stripChars l :=
      List.rdropWhile_prefix _ _
    have h2 := lowerStartsWithWWW_of_isPrefixOf hp hb
    simp [h2] at hw

lemma normalizeUrlChars_idem (l : List Char)
    (hws : ∀ c ∈ (normalizeUrlChars l).getLast?, pyIsSpace c = false) :
    normalizeUrlChars (normalizeUrlChars l) = normalizeUrlChars l := by
  have hlstrip : lstripChars (normalizeUrlChars l) = normalizeUrlChars l := by
    cases hd : normalizeUrlChars l with
    | nil => simp [lstripChars]
    | cons a t =>
      have ha : pyIsSpace a = false := by
        have h3 := normalizeUrlChars_head_not_space l (c := a)
        rw [hd] at h3
        exact h3 rfl
      simp [lstripChars, List.dropWhile_cons, ha]
  have hstrip : stripChars (normalizeUrlChars l) = normalizeUrlChars l := by
    rw [stripChars, hlstrip, rstripChars]
    exact rdropWhile_eq_self_of_getLast? hws
  conv_lhs => rw [normalizeUrlChars]
  rw [hstrip, normalizeUrlChars_no_www_start]
  simp only [Bool.false_eq_true, if_false]
  exact rdropWhile_eq_self_of_getLast? (normalizeUrlChars_last_not_punct l)

/-- C10 (amended): `_normalize_url` output never ends in a character of the
trailing-punctuation set and never begins with `"www."`; it is idempotent on
every input whose normalized form does not end in whitespace (trimming
trailing punctuation can expose internal whitespace at the end, which only a
second application would strip — the sole source of non-idempotence). -/
theorem normalize_url_amended (u : String)
    (hws : ((normalizeUrl u).data.getLast?.all fun c => !pyIsSpace c) = true) :
    normalizeUrl (normalizeUrl u) = normalizeUrl u
    ∧ (∀ c ∈ (normalizeUrl u).data.getLast?, trailPunct c = false)
    ∧ ¬ ("www.".data <+: (normalizeUrl u).data) := by
  have hws' : ∀ c ∈ (normalizeUrlChars u.data).getLast?, pyIsSpace c = false := by
    intro c hc
    have hc2 : (normalizeUrl u).data.getLast? = some c := hc
    rw [hc2] at hws
    simpa [Option.all] using hws
  refine ⟨?_, normalizeUrlChars_last_not_punct u.data, normalizeUrlChars_no_www u.data⟩
  exact congrArg String.mk (normalizeUrlChars_idem u.data hws')

/-- Witness for `normalize_url_amended` at the concrete input `"ab"`. -/
theorem normalize_url_amended_witness :
    (((normalizeUrl "ab").data.getLast?.all fun c => !pyIsSpace c) = true)
    ∧ (normalizeUrl (normalizeUrl "ab") = normalizeUrl "ab"
       ∧ (∀ c ∈ (normalizeUrl "ab").data.getLast?, trailPunct c = false)
       ∧ ¬ ("www.".data <+: (normalizeUrl "ab").data)) :=
  ⟨by decide, normalize_url_amended "ab" (by decide)⟩

/-! ## Inline span resolver (`_add_inline_segments` and helpers) -/

/-- Configuration bits consulted by the inline resolver: the two math valves,
the `LATEX_MATH_AVAILABLE` import flag, and the per-run citation anchor map
`_citation_anchor_by_index`. -/
structure Valves where
  mathEnable : Bool
  inlineDollarEnable : Bool
  latexAvailable : Bool
  anchors : Nat → Option String

/-- One emitted run/element on the paragraph.  Each constructor corresponds to
one kind of `docx` element appended by the Python code. -/
inductive Span where
  /-- `_add_text_run` with the inherited style flags. -/
  | text (s : List Char) (bold italic strike : Bool)
  /-- a code-styled run inside `_add_inline_code`. -/
  | code (s : List Char)
  /-- a code-styled hyperlink (`_add_hyperlink_code`). -/
  | codeLink (display url : List Char)
  /-- an OMML equation run (`_add_inline_equation`, conversion succeeding). -/
  | equation (latex : List Char) (bold italic strike : Bool)
  /-- an external hyperlink (`_add_hyperlink`). -/
  | hyperlink (display url : List Char)
  /-- an internal cross-reference (`_add_internal_hyperlink`). -/
  | internalLink (display : List Char) (anchor : String)
  /-- `_embed_markdown_image` invocation (classification happens inside). -/
  | image (alt url : List Char)
  deriving DecidableEq, Repr

/-- `_add_text_run`: skips empty strings. -/
def addTextRun (s : List Char) (b i st : Bool) : List Span :=
  if s = [] then [] else [.text s b i st]

/-- `_add_inline_equation`: strip, drop empty latex, emit an equation run when
math is enabled and the latex converter is importable, else a literal
`\(...\)` text run.  (A converter exception also falls back to the literal
run; conversion success is abstracted as success here.) -/
def addInlineEquation (v : Valves) (latex : List Char) (b i st : Bool) : List Span :=
  let t := stripChars latex
  if t = [] then []
  else if v.mathEnable && v.latexAvailable then [.equation t b i st]
  else addTextRun ("\\(".data ++ t ++ "\\)".data) b i st

/-- URL body characters of `_AUTO_URL_RE`: `[^\s<>()]`. -/
def isUrlChar (c : Char) : Bool :=
  !pyIsSpace c && c != '<' && c != '>' && c != '(' && c != ')'

/-- Attempt to match one alternation branch of `_AUTO_URL_RE` at the head of
`cs`: the literal `pre` followed by a nonempty run of URL body characters. -/
def checkUrlAt (pre cs : List Char) : Option (List Char) :=
  if pre.isPrefixOf cs then
    if (cs.drop pre.length).takeWhile isUrlChar = [] then none
    else some (pre ++ (cs.drop pre.length).takeWhile isUrlChar)
  else none

/-- `_AUTO_URL_RE.match(text, i)`: anchored match of
`(?:https?://|www\.)[^\s<>()]+` at the head of `cs`, returning the matched
run. -/
def autoUrlMatch (cs : List Char) : Option (List Char) :=
  match checkUrlAt "https://".data cs with
  | some m => some m
  | none =>
    match checkUrlAt "http://".data cs with
    | some m => some m
    | none => checkUrlAt "www.".data cs

lemma checkUrlAt_pos {pre cs raw : List Char} (h : checkUrlAt pre cs = some raw) :
    1 ≤ raw.length ∧ raw <+: cs := by
  unfold checkUrlAt at h
  split at h
  case isTrue hpre =>
    split at h
    case isTrue => simp at h
    case isFalse hbody =>
      rw [Option.some.injEq] at h
      subst h
      refine ⟨?_, ?_⟩
      · rcases hb : (cs.drop pre.length).takeWhile isUrlChar with _ | ⟨a, t⟩
        · exact absurd hb hbody
        · simp [hb]
          omega
      · obtain ⟨t, ht⟩ := List.isPrefixOf_iff_prefix.mp hpre
        refine ⟨(cs.drop pre.length).dropWhile isUrlChar, ?_⟩
        conv_rhs => rw [← ht]
        rw [← ht, List.drop_left, List.append_assoc, List.takeWhile_append_dropWhile]
  case isFalse => simp at h

lemma autoUrlMatch_pos {cs raw : List Char} (h : autoUrlMatch cs = some raw) :
    1 ≤ raw.length ∧ raw <+: cs := by
  unfold autoUrlMatch at h
  rcases h1 : checkUrlAt "https://".data cs with _ | m
  · rw [h1] at h
    rcases h2 : checkUrlAt "http://".data cs with _ | m2
    · rw [h2] at h
      exact checkUrlAt_pos h
    · rw [h2, Option.some.injEq] at h
      subst h
      exact checkUrlAt_pos h2
  · rw [h1, Option.some.injEq] at h
    subst h
    exact checkUrlAt_pos h1

/-- `_add_hyperlink_code(display, url)`: re-normalize the URL; emit a
code-styled hyperlink.  The Python fallback when the normalized URL is empty
re-resolves the display text through `_add_inline_code`; at both call sites
the URL argument is a nonempty already-normalized URL (see
`hyperlink_code_fallback_dead`), so that dead branch is modelled as a plain
code run of the display text. -/
def addHyperlinkCodeEv (display url : List Char) : List Span :=
  let u := normalizeUrlChars url
  if u = [] then [.code display] else [.codeLink display u]

/-- `_add_code_run` inside `_add_inline_code`: skips empty chunks. -/
def addCodeRun (chunk : List Char) : List Span :=
  if chunk = [] then [] else [.code chunk]

/-- The `finditer` loop of `_add_inline_code` (src/export_doc_func.py:1990-2024):
`acc` is the pending unmatched chunk in reverse.  The loop advances by at
least one character per step, so a fuel of `cs.length` suffices; the
fuel-exhausted arm is unreachable for that fuel
(see `addInlineCodeGo_spec`). -/
def addInlineCodeGo : Nat → List Char → List Char → List Span
  | _, acc, [] => addCodeRun acc.reverse
  | 0, acc, cs => addCodeRun (acc.reverse ++ cs)
  | fuel + 1, acc, c :: rest =>
    match autoUrlMatch (c :: rest) with
    | none => addInlineCodeGo fuel (c :: acc) rest
    | some raw =>
      let trimmed := raw.rdropWhile trailPunct
      let tailPart := raw.drop trimmed.length
      let normalized := normalizeUrlChars trimmed
      addCodeRun acc.reverse ++
        (if normalized = [] then [.code raw] else addHyperlinkCodeEv trimmed normalized) ++
        addCodeRun tailPart ++
        addInlineCodeGo fuel [] ((c :: rest).drop raw.length)

/-- `_add_inline_code`: emit the span contents in code styling, auto-linking
bare URLs (the code contents ARE re-scanned for URLs). -/
def addInlineCodeEvents (s : List Char) : List Span :=
  if s = [] then [] else addInlineCodeGo s.length [] s

/-- `_add_hyperlink(text, url, display_text)`: normalize the URL; an empty
normalized URL degrades to a plain unstyled run of the display text. -/
def addHyperlinkEv (textArg : List Char) (url : List Char)
    (dispOpt : Option (List Char)) : List Span :=
  let disp := match dispOpt with
    | none => textArg
    | some d => if d = [] then textArg else d
  let u := normalizeUrlChars url
  if u = [] then [.text disp false false false] else [.hyperlink disp u]

/-- The single-character specials of `next_special`. -/
def specialChar (c : Char) : Bool :=
  c == '`' || c == '!' || c == '[' || c == '*' || c == '_' || c == '~' ||
  c == '$' || c == '\\'

/-- Is a `next_special` candidate anchored at the head of `cs`? -/
def isSpecialHead (cs : List Char) : Bool :=
  match cs with
  | [] => false
  | c :: _ =>
    specialChar c || "http://".data.isPrefixOf cs ||
    "https://".data.isPrefixOf cs || "www.".data.isPrefixOf cs

/-- Split `cs` at the first `next_special` candidate position. -/
def splitAtSpecial (cs : List Char) : List Char × List Char :=
  match cs with
  | [] => ([], [])
  | c :: rest =>
    if isSpecialHead (c :: rest) then ([], c :: rest)
    else
      let (a, b) := splitAtSpecial rest
      (c :: a, b)

/-- First index `j ≥ 1` of an unescaped `$` (`text[j] = '$'`, `text[j-1] ≠ '\'`),
the closing-dollar search loop of the inline-math branch.  `pchar` is the
character at `idx - 1`. -/
def findUnescapedDollar (pchar : Char) (idx : Nat) : List Char → Option Nat
  | [] => none
  | d :: ds =>
    if d == '$' && pchar != '\\' then some idx
    else findUnescapedDollar d (idx + 1) ds

/-- `_CURRENCY_NUMBER_RE`: `^\d[\d,]*(?:\.\d+)?$`. -/
def currencyNumber (l : List Char) : Bool :=
  match l with
  | [] => false
  | d :: ds =>
    pyIsDigit d &&
      (let post := ds.dropWhile (fun c => pyIsDigit c || c == ',')
       match post with
       | [] => true
       | c :: more => c == '.' && more ≠ [] && more.all pyIsDigit)

/-- Python `int(...)` on a digit string. -/
def digitsToNat (l : List Char) : Nat :=
  l.foldl (fun a c => 10 * a + (c.toNat - 48)) 0

/-- The backtick character (kept out of literals). -/
def btick : Char := Char.ofNat 96

/-- The fixed escapable punctuation set of the backslash-escape branch:
`\\`, backtick, `*_{}[]()#+-.!|$`. -/
def escapable (c : Char) : Bool :=
  ['\\', btick, '*', '_', '\x7b', '\x7d', '[', ']', '(', ')', '#', '+', '-',
    '.', '!', '|', '$'].contains c

/-- `text.find(ch, start)` relative to a suffix: index of the first
occurrence of `ch`. -/
def findCharIdx (ch : Char) : List Char → Option Nat
  | [] => none
  | c :: rest => if c == ch then some 0 else (findCharIdx ch rest).map (· + 1)

/-- `text.find(sub, start)` relative to a suffix: index of the first position
where `sub` starts. -/
def findSubIdx (sub : List Char) : List Char → Option Nat
  | [] => if sub.isPrefixOf ([] : List Char) then some 0 else none
  | c :: rest =>
    if sub.isPrefixOf (c :: rest) then some 0 else (findSubIdx sub rest).map (· + 1)

lemma findCharIdx_lt {ch : Char} : ∀ {l : List Char} {j : Nat},
    findCharIdx ch l = some j → j < l.length := by
  intro l
  induction l with
  | nil => intro j h; simp [findCharIdx] at h
  | cons c rest ih =>
    intro j h
    rw [findCharIdx] at h
    split at h
    · rw [Option.some.injEq] at h
      subst h
      simp
    · rcases h2 : findCharIdx ch rest with _ | j0
      · rw [h2] at h; simp at h
      · rw [h2] at h
        simp at h
        have := ih h2
        simp
        omega

/-- The outcome of one iteration of the `_add_inline_segments` `while` loop:
either a list of emitted elements, or a recursive re-tokenization of a
delimiter interior with updated style flags.  `consumed` is the number of
characters the iteration advances over (`i_new - i`), always at least 1. -/
inductive StepRes where
  | emit (evs : List Span) (consumed : Nat)
  | emitRec (inner : List Char) (bold italic strike : Bool) (consumed : Nat)
  deriving Repr

/-- The image branch: `![alt](url)`. -/
def tryImage (cs : List Char) : Option StepRes :=
  if "![".data.isPrefixOf cs then
    match findCharIdx ']' (cs.drop 2) with
    | none => none
    | some j2 =>
      let close := 2 + j2
      if close + 1 < cs.length ∧ cs.getD (close + 1) ' ' = '(' then
        match findCharIdx ')' (cs.drop (close + 2)) with
        | none => none
        | some jp =>
          let cp := close + 2 + jp
          let alt := (cs.drop 2).take j2
          let url0 := stripChars ((cs.drop (close + 2)).take jp)
          let url :=
            if 2 ≤ url0.length ∧ url0.head? = some '<' ∧ url0.getLast? = some '>'
            then stripChars (url0.drop 1).dropLast else url0
          some (.emit [.image alt url] (cp + 1))
      else none
  else none

/-- The inline-code branch: a backtick with a closing backtick. -/
def tryCode (cs : List Char) : Option StepRes :=
  match cs with
  | c :: rest =>
    if c == btick then
      match findCharIdx btick rest with
      | none => none
      | some j0 => some (.emit (addInlineCodeEvents (rest.take j0)) (j0 + 2))
    else none
  | [] => none

/-- The `\(...\)` inline-equation branch. -/
def tryParenEq (v : Valves) (cs : List Char) (b it st : Bool) : Option StepRes :=
  if "\\(".data.isPrefixOf cs then
    match findSubIdx "\\)".data (cs.drop 2) with
    | none => none
    | some j0 =>
      some (.emit (addInlineEquation v ((cs.drop 2).take j0) b it st) (j0 + 4))
  else none

/-- The backslash-escape branch (fires exactly when the head is `\` and the
previous branches declined). -/
def tryEscape (cs : List Char) (b it st : Bool) : Option StepRes :=
  match cs with
  | '\\' :: d :: _ =>
    if escapable d then some (.emit (addTextRun [d] b it st) 2)
    else some (.emit (addTextRun ['\\'] b it st) 1)
  | ['\\'] => some (.emit (addTextRun ['\\'] b it st) 1)
  | _ => none

/-- A long (≥ 4) homogeneous run of `ch` emitted as literal separator text. -/
def tryRun (ch : Char) (cs : List Char) (b it st : Bool) : Option StepRes :=
  match cs with
  | c :: _ =>
    if c == ch then
      if 4 ≤ (cs.takeWhile (· == ch)).length then
        some (.emit (addTextRun (cs.take ((cs.takeWhile (· == ch)).length)) b it st)
          ((cs.takeWhile (· == ch)).length))
      else none
    else none
  | [] => none

/-- The conservative inline `$...$` math branch
(src/export_doc_func.py:2162-2221).  Fires exactly when the head is `$` and
both math valves are on; every sub-path advances. -/
def tryDollar (v : Valves) (prev : Option Char) (cs : List Char) (b it st : Bool) :
    Option StepRes :=
  match cs with
  | '$' :: rest =>
    if v.mathEnable && v.inlineDollarEnable then
      let lit : StepRes := .emit (addTextRun ['$'] b it st) 1
      if "$$".data.isPrefixOf ('$' :: rest) then some lit
      else
        match rest with
        | [] => some lit
        | r1 :: _ =>
          if pyIsSpace r1 then some lit
          else if (match prev with | some p => pyIsAlnum p | none => false) then some lit
          else
            match findUnescapedDollar '$' 1 rest with
            | none => some lit
            | some j =>
              let inner := rest.take (j - 1)
              if !inner.isEmpty && !inner.contains '\n' &&
                  inner.head?.all (fun ch => !pyIsSpace ch) &&
                  (inner.getLast?.all fun ch => !pyIsSpace ch) then
                if currencyNumber inner &&
                    (match prev with | none => true | some p => pyIsSpace p) then
                  some lit
                else if j + 1 < ('$' :: rest).length ∧
                    pyIsDigit (('$' :: rest).getD (j + 1) ' ') = true then
                  some lit
                else some (.emit (addInlineEquation v inner b it st) (j + 1))
              else some lit
    else none
  | _ => none

/-- A two-character emphasis pair (`~~`, `**`, `__`): find the closing pair
and re-tokenize the interior. -/
def tryPair (dd : List Char) (cs : List Char) (b it st : Bool) : Option StepRes :=
  if dd.isPrefixOf cs then
    match findSubIdx dd (cs.drop 2) with
    | none => none
    | some j0 => some (.emitRec ((cs.drop 2).take j0) b it st (j0 + 4))
  else none

/-- A one-character emphasis delimiter (`*` or `_`), not doubled. -/
def trySingle (d : Char) (cs : List Char) (b it st : Bool) : Option StepRes :=
  match cs with
  | c :: rest =>
    if c == d && !(rest.head? == some d) then
      match findCharIdx d rest with
      | none => none
      | some j0 => some (.emitRec (rest.take j0) b it st (j0 + 2))
    else none
  | [] => none

/-- The `[` branch: an explicit `[text](url)` link, else a numeric citation
marker `[N]` resolved through the per-run anchor map. -/
def tryBracket (v : Valves) (cs : List Char) : Option StepRes :=
  match cs with
  | '[' :: rest =>
    match findCharIdx ']' rest with
    | none => none
    | some j0 =>
      let close := 1 + j0
      let linkRes : Option StepRes :=
        if close + 1 < cs.length ∧ cs.getD (close + 1) ' ' = '(' then
          match findCharIdx ')' (cs.drop (close + 2)) with
          | none => none
          | some jp =>
            let cp := close + 2 + jp
            some (.emit
              (addHyperlinkEv (rest.take j0) ((cs.drop (close + 2)).take jp) none)
              (cp + 1))
        else none
      match linkRes with
      | some r => some r
      | none =>
        let inner := stripChars (rest.take j0)
        if !inner.isEmpty && inner.all pyIsDigit then
          match v.anchors (digitsToNat inner) with
          | some anchor =>
            some (.emit
              [.internalLink ('[' :: (Nat.repr (digitsToNat inner)).data ++ [']']) anchor]
              (close + 1))
          | none => none
        else none
  | _ => none

/-- The bare-autolink branch: `_AUTO_URL_RE.match` at the scan position, with
trailing sentence punctuation re-attached as plain text after the link. -/
def tryAutoLink (cs : List Char) (b it st : Bool) : Option StepRes :=
  match autoUrlMatch cs with
  | none => none
  | some raw =>
    let trimmed := raw.rdropWhile trailPunct
    let tailPart := raw.drop trimmed.length
    let normalized := normalizeUrlChars trimmed
    if normalized = [] then some (.emit (addTextRun raw b it st) raw.length)
    else
      some (.emit
        (addHyperlinkEv trimmed normalized (some trimmed) ++ addTextRun tailPart b it st)
        raw.length)

/-- The fall-through branch: emit plain text up to the next `next_special`
candidate, or a single literal character when the current position itself is
a (rejected) special. -/
def defaultStep (cs : List Char) (b it st : Bool) : StepRes :=
  let (chunk, _) := splitAtSpecial cs
  if chunk = [] then .emit (addTextRun (cs.take 1) b it st) 1
  else .emit (addTextRun chunk b it st) chunk.length

/-- One iteration of the `_add_inline_segments` loop, in the source's branch
order; branches whose inner `find` fails fall through exactly as in the
Python control flow. -/
def inlineStep (v : Valves) (prev : Option Char) (cs : List Char) (b it st : Bool) :
    StepRes :=
  match tryImage cs with
  | some r => r
  | none =>
  match tryCode cs with
  | some r => r
  | none =>
  match tryParenEq v cs b it st with
  | some r => r
  | none =>
  match tryEscape cs b it st with
  | some r => r
  | none =>
  match tryRun '_' cs b it st with
  | some r => r
  | none =>
  match tryRun '*' cs b it st with
  | some r => r
  | none =>
  match tryRun '~' cs b it st with
  | some r => r
  | none =>
  match tryDollar v prev cs b it st with
  | some r => r
  | none =>
  match tryPair "~~".data cs b it true with
  | some r => r
  | none =>
  match tryPair "**".data cs true it st with
  | some r => r
  | none =>
  match tryPair "__".data cs true it st with
  | some r => r
  | none =>
  match trySingle '*' cs b true st with
  | some r => r
  | none =>
  match trySingle '_' cs b true st with
  | some r => r
  | none =>
  match tryBracket v cs with
  | some r => r
  | none =>
  match tryAutoLink cs b it st with
  | some r => r
  | none => defaultStep cs b it st

/-- `_add_inline_segments`, fuel-indexed.  One unit of fuel is consumed per
scanner activation; every iteration advances by at least one character and
recursive re-tokenization enters a strictly shorter interior, so any fuel
exceeding the suffix length suffices (`scanSpans_isSome`).  `prev` is the
character before the scan position (`text[i-1]`), `none` at the start of a
(re-)tokenized string. -/
def scanSpans (v : Valves) : Nat → Option Char → List Char → Bool → Bool → Bool →
    Option (List Span)
  | 0, _, _, _, _, _ => none
  | fuel + 1, prev, cs, b, it, st =>
    match cs with
    | [] => some []
    | c :: rest =>
      match inlineStep v prev (c :: rest) b it st with
      | .emit evs k =>
        (scanSpans v fuel ((c :: rest).take k).getLast? ((c :: rest).drop k) b it st).map
          (fun tailSp => evs ++ tailSp)
      | .emitRec inner b2 i2 s2 k =>
        match scanSpans v fuel none inner b2 i2 s2 with
        | none => none
        | some innerSp =>
          (scanSpans v fuel ((c :: rest).take k).getLast? ((c :: rest).drop k) b it st).map
            (fun tailSp => innerSp ++ tailSp)

/-- `add_formatted_text` / the top of every inline resolution: scan with all
style flags off and sufficient fuel. -/
def addFormattedText (v : Valves) (s : List Char) : List Span :=
  (scanSpans v (s.length + 1) none s false false false).getD []

/-- A `Valves` value with the given math/dollar/latex flags and no citation
anchors. -/
def mkValves (me ide la : Bool) : Valves :=
  ⟨me, ide, la, fun _ => none⟩

/-! ### Progress of every scanner iteration -/

/-- The progress invariant of one scanner iteration: it consumes at least one
character, and a re-tokenized interior is at least two characters shorter
than the current suffix. -/
def StepRes.okFor : StepRes → List Char → Prop
  | .emit _ k, _ => 1 ≤ k
  | .emitRec inner _ _ _ k, cs => 1 ≤ k ∧ inner.length + 2 ≤ cs.length

lemma tryImage_ok {cs : List Char} {r : StepRes} (h : tryImage cs = some r) :
    r.okFor cs := by
  unfold tryImage at h
  repeat'
    first
    | exact Option.noConfusion h
    | (rw [Option.some.injEq] at h; subst h; simp [StepRes.okFor]; try omega)
    | split at h
    | dsimp only at h

lemma tryCode_ok {cs : List Char} {r : StepRes} (h : tryCode cs = some r) :
    r.okFor cs := by
  unfold tryCode at h
  repeat'
    first
    | exact Option.noConfusion h
    | (rw [Option.some.injEq] at h; subst h; simp [StepRes.okFor]; try omega)
    | split at h
    | dsimp only at h

lemma tryParenEq_ok {v : Valves} {cs : List Char} {b it st : Bool} {r : StepRes}
    (h : tryParenEq v cs b it st = some r) : r.okFor cs := by
  unfold tryParenEq at h
  repeat'
    first
    | exact Option.noConfusion h
    | (rw [Option.some.injEq] at h; subst h; simp [StepRes.okFor]; try omega)
    | split at h
    | dsimp only at h

lemma tryEscape_ok {cs : List Char} {b it st : Bool} {r : StepRes}
    (h : tryEscape cs b it st = some r) : r.okFor cs := by
  unfold tryEscape at h
  repeat'
    first
    | exact Option.noConfusion h
    | (rw [Option.some.injEq] at h; subst h; simp [StepRes.okFor]; try omega)
    | split at h
    | dsimp only at h

lemma tryRun_ok {ch : Char} {cs : List Char} {b it st : Bool} {r : StepRes}
    (h : tryRun ch cs b it st = some r) : r.okFor cs := by
  unfold tryRun at h
  repeat'
    first
    | exact Option.noConfusion h
    | (rw [Option.some.injEq] at h; subst h; simp [StepRes.okFor]; omega)
    | split at h
    | dsimp only at h

lemma tryDollar_ok {v : Valves} {prev : Option Char} {cs : List Char}
    {b it st : Bool} {r : StepRes} (h : tryDollar v prev cs b it st = some r) :
    r.okFor cs := by
  unfold tryDollar at h
  repeat'
    first
    | exact Option.noConfusion h
    | (rw [Option.some.injEq] at h; subst h; simp [StepRes.okFor]; try omega)
    | split at h
    | dsimp only at h

lemma tryPair_ok {dd cs : List Char} {b it st : Bool} {r : StepRes}
    (hdd : dd.length = 2) (h : tryPair dd cs b it st = some r) : r.okFor cs := by
  unfold tryPair at h
  split at h
  case isTrue hpre =>
    have hlen : 2 ≤ cs.length := by
      have := (List.isPrefixOf_iff_prefix.mp hpre).length_le
      omega
    split at h
    · simp at h
    · rw [Option.some.injEq] at h
      subst h
      refine ⟨by omega, ?_⟩
      simp [List.length_take, List.length_drop]
      omega
  case isFalse => simp at h

lemma trySingle_ok {d : Char} {cs : List Char} {b it st : Bool} {r : StepRes}
    (h : trySingle d cs b it st = some r) : r.okFor cs := by
  unfold trySingle at h
  match cs, h with
  | c :: rest, h =>
    simp only at h
    split at h
    · rcases h2 : findCharIdx d rest with _ | j0
      · rw [h2] at h; simp at h
      · rw [h2] at h
        rw [Option.some.injEq] at h
        subst h
        have hj := findCharIdx_lt h2
        refine ⟨by omega, ?_⟩
        simp [List.length_take]
        omega
    · simp at h

lemma tryBracket_ok {v : Valves} {cs : List Char} {r : StepRes}
    (h : tryBracket v cs = some r) : r.okFor cs := by
  unfold tryBracket at h
  split at h
  case h_2 => exact Option.noConfusion h
  case h_1 rest =>
    rcases h1 : findCharIdx ']' rest with _ | j0
    all_goals rw [h1] at h
    · exact Option.noConfusion h
    · dsimp only at h
      have hcit : ∀ (hcit2 : (if !(stripChars (rest.take j0)).isEmpty &&
            (stripChars (rest.take j0)).all pyIsDigit then
            match v.anchors (digitsToNat (stripChars (rest.take j0))) with
            | some anchor =>
              some (StepRes.emit
                [.internalLink
                  ('[' :: (Nat.repr (digitsToNat (stripChars (rest.take j0)))).data ++ [']'])
                  anchor]
                (1 + j0 + 1))
            | none => none
          else none) = some r), r.okFor ('[' :: rest) := by
        intro hcit2
        split at hcit2
        case isFalse => exact Option.noConfusion hcit2
        case isTrue =>
          rcases h3 : v.anchors (digitsToNat (stripChars (rest.take j0))) with _ | anchor
          all_goals rw [h3] at hcit2
          · exact Option.noConfusion hcit2
          · rw [Option.some.injEq] at hcit2
            subst hcit2
            simp [StepRes.okFor]
      by_cases hcond : (1 + j0 + 1 < ('[' :: rest).length ∧
          ('[' :: rest).getD (1 + j0 + 1) ' ' = '(')
      · rw [if_pos hcond] at h
        rcases h2 : findCharIdx ')' (('[' :: rest).drop (1 + j0 + 2)) with _ | jp
        all_goals rw [h2] at h
        · exact hcit h
        · rw [Option.some.injEq] at h
          subst h
          simp [StepRes.okFor]
      · rw [if_neg hcond] at h
        exact hcit h

lemma tryAutoLink_ok {cs : List Char} {b it st : Bool} {r : StepRes}
    (h : tryAutoLink cs b it st = some r) : r.okFor cs := by
  unfold tryAutoLink at h
  rcases h2 : autoUrlMatch cs with _ | raw
  · rw [h2] at h; simp at h
  · rw [h2] at h
    have hpos := (autoUrlMatch_pos h2).1
    simp only at h
    split at h
    all_goals (rw [Option.some.injEq] at h; subst h; exact hpos)

lemma defaultStep_ok (cs : List Char) (b it st : Bool) :
    (defaultStep cs b it st).okFor cs := by
  unfold defaultStep
  rcases h : splitAtSpecial cs with ⟨chunk, rest2⟩
  by_cases hc : chunk = []
  · simp [h, hc, StepRes.okFor]
  · simp [h, hc, StepRes.okFor]
    exact List.length_pos.mpr hc

lemma inlineStep_ok (v : Valves) (prev : Option Char) (cs : List Char)
    (b it st : Bool) : (inlineStep v prev cs b it st).okFor cs := by
  unfold inlineStep
  rcases h1 : tryImage cs with _ | r
  case some => exact tryImage_ok h1
  rcases h2 : tryCode cs with _ | r
  case some => exact tryCode_ok h2
  rcases h3 : tryParenEq v cs b it st with _ | r
  case some => exact tryParenEq_ok h3
  rcases h4 : tryEscape cs b it st with _ | r
  case some => exact tryEscape_ok h4
  rcases h5 : tryRun '_' cs b it st with _ | r
  case some => exact tryRun_ok h5
  rcases h6 : tryRun '*' cs b it st with _ | r
  case some => exact tryRun_ok h6
  rcases h7 : tryRun '~' cs b it st with _ | r
  case some => exact tryRun_ok h7
  rcases h8 : tryDollar v prev cs b it st with _ | r
  case some => exact tryDollar_ok h8
  rcases h9 : tryPair "~~".data cs b it true with _ | r
  case some => exact tryPair_ok (by decide) h9
  rcases h10 : tryPair "**".data cs true it st with _ | r
  case some => exact tryPair_ok (by decide) h10
  rcases h11 : tryPair "__".data cs true it st with _ | r
  case some => exact tryPair_ok (by decide) h11
  rcases h12 : trySingle '*' cs b true st with _ | r
  case some => exact trySingle_ok h12
  rcases h13 : trySingle '_' cs b true st with _ | r
  case some => exact trySingle_ok h13
  rcases h14 : tryBracket v cs with _ | r
  case some => exact tryBracket_ok h14
  rcases h15 : tryAutoLink cs b it st with _ | r
  case some => exact tryAutoLink_ok h15
  exact defaultStep_ok cs b it st

lemma scanSpans_isSome (v : Valves) :
    ∀ (fuel : Nat) (prev : Option Char) (cs : List Char) (b it st : Bool),
      cs.length < fuel → (scanSpans v fuel prev cs b it st).isSome = true := by
  intro fuel
  induction fuel with
  | zero => intro _ cs _ _ _ h; omega
  | succ fuel ih =>
    intro prev cs b it st h
    rw [scanSpans.eq_def]
    cases cs with
    | nil => simp
    | cons c rest =>
      dsimp only
      have hok := inlineStep_ok v prev (c :: rest) b it st
      cases hstep : inlineStep v prev (c :: rest) b it st with
      | emit evs k =>
        rw [hstep] at hok
        simp only
        have h2 : ((c :: rest).drop k).length < fuel := by
          simp only [List.length_drop, List.length_cons] at *
          simp only [StepRes.okFor] at hok
          omega
        have h3 := ih (((c :: rest).take k).getLast?) _ b it st h2
        obtain ⟨x, hx⟩ := Option.isSome_iff_exists.mp h3
        rw [hx]
        rfl
      | emitRec inner b2 i2 s2 k =>
        rw [hstep] at hok
        simp only [StepRes.okFor] at hok
        simp only
        have hinner : inner.length < fuel := by
          simp only [List.length_cons] at h hok
          omega
        have h4 := ih none inner b2 i2 s2 hinner
        obtain ⟨y, hy⟩ := Option.isSome_iff_exists.mp h4
        rw [hy]
        have h2 : ((c :: rest).drop k).length < fuel := by
          simp only [List.length_drop, List.length_cons] at *
          omega
        have h3 := ih (((c :: rest).take k).getLast?) _ b it st h2
        obtain ⟨x, hx⟩ := Option.isSome_iff_exists.mp h3
        rw [hx]
        rfl

/-- C7: for every input, configuration, inherited style flags, and scan
context, the inline span resolver completes (returns a result) whenever its
step budget exceeds the input length: every iteration strictly advances the
scan position by at least one character (unmatched delimiters are emitted as
literal text by the fall-through branch) and every recursive re-tokenization
enters a strictly shorter substring, so `length + 1` scanner activations —
linear in the input — always suffice. -/
theorem inline_span_resolution_terminates (v : Valves) (prev : Option Char)
    (cs : List Char) (b it st : Bool) (fuel : Nat) (h : cs.length < fuel) :
    (scanSpans v fuel prev cs b it st).isSome = true :=
  scanSpans_isSome v fuel prev cs b it st h

/-- Witness for `inline_span_resolution_terminates` on an adversarial string
of unmatched delimiters, with fuel `length + 1`. -/
theorem inline_span_resolution_terminates_witness :
    ("**a *b `c $d [e".data.length < 16) ∧
      (scanSpans (mkValves true true true) 16 none "**a *b `c $d [e".data
        false false false).isSome = true :=
  ⟨by decide,
    inline_span_resolution_terminates (mkValves true true true) none
      "**a *b `c $d [e".data false false false 16 (by decide)⟩

/-- Does the resolved span list contain an equation element? -/
def hasEquationEv (l : List Span) : Bool :=
  l.any fun e => match e with | .equation _ _ _ _ => true | _ => false

/-- C3: the inline-dollar heuristics never resolve `$5`, `$5.00`, or `$ x $`
as inline equations under any combination of the math toggles (and latex
availability), while `$x+y$` resolves to an inline equation when
`MATH_ENABLE` and `MATH_INLINE_DOLLAR_ENABLE` are both on. -/
theorem inline_math_currency_disambiguation :
    (∀ me ide la : Bool,
        hasEquationEv (addFormattedText (mkValves me ide la) "$5".data) = false ∧
        hasEquationEv (addFormattedText (mkValves me ide la) "$5.00".data) = false ∧
        hasEquationEv (addFormattedText (mkValves me ide la) "$ x $".data) = false) ∧
    addFormattedText (mkValves true true true) "$x+y$".data =
      [Span.equation "x+y".data false false false] := by decide

/-! ### C4: code-span contents -/

lemma forall_getLast?_of_forall {P : Char → Prop} {l : List Char}
    (h : ∀ c ∈ l, P c) : ∀ c ∈ l.getLast?, P c := by
  intro c hc
  obtain ⟨hne, rfl⟩ := List.mem_getLast?_eq_getLast hc
  exact h _ (List.getLast_mem hne)

lemma checkUrlAt_shape {pre cs raw : List Char} (hne : pre ≠ [])
    (hws : ∀ c ∈ pre, pyIsSpace c = false) (h : checkUrlAt pre cs = some raw) :
    (∀ c ∈ raw, pyIsSpace c = false) ∧ raw.head? = pre.head? := by
  unfold checkUrlAt at h
  split at h
  case isFalse => exact Option.noConfusion h
  case isTrue hpre =>
    split at h
    case isTrue => exact Option.noConfusion h
    case isFalse hbody =>
      rw [Option.some.injEq] at h
      subst h
      constructor
      · intro c hc
        rcases List.mem_append.mp hc with hc | hc
        · exact hws c hc
        · have := List.mem_takeWhile_imp hc
          unfold isUrlChar at this
          simp only [Bool.and_eq_true, Bool.not_eq_true'] at this
          exact this.1.1.1.1
      · cases pre with
        | nil => exact absurd rfl hne
        | cons p ps => rfl

lemma autoUrlMatch_shape {cs raw : List Char} (h : autoUrlMatch cs = some raw) :
    (∀ c ∈ raw, pyIsSpace c = false) ∧
      (raw.head? = some 'h' ∨ raw.head? = some 'w') := by
  unfold autoUrlMatch at h
  rcases h1 : checkUrlAt "https://".data cs with _ | m
  all_goals rw [h1] at h
  · rcases h2 : checkUrlAt "http://".data cs with _ | m2
    all_goals rw [h2] at h
    · have := @checkUrlAt_shape "www.".data _ _ (by decide) (by decide) h
      exact ⟨this.1, Or.inr this.2⟩
    · rw [Option.some.injEq] at h
      subst h
      have := @checkUrlAt_shape "http://".data _ _ (by decide) (by decide) h2
      exact ⟨this.1, Or.inl this.2⟩
  · rw [Option.some.injEq] at h
    subst h
    have := @checkUrlAt_shape "https://".data _ _ (by decide) (by decide) h1
    exact ⟨this.1, Or.inl this.2⟩

/-- A nonempty character list whose head is `h` or `w` survives the
trailing-punctuation trim nonempty, with the same head. -/
lemma rdropWhile_punct_of_url_head {l : List Char}
    (hh : l.head? = some 'h' ∨ l.head? = some 'w') :
    l.rdropWhile trailPunct ≠ [] ∧
      (l.rdropWhile trailPunct).head? = l.head? := by
  have hmem : ∃ x ∈ l, trailPunct x = false := by
    rcases hh with hh | hh
    · exact ⟨'h', List.mem_of_mem_head? (by rw [hh]; rfl), by decide⟩
    · exact ⟨'w', List.mem_of_mem_head? (by rw [hh]; rfl), by decide⟩
  have hne : l.rdropWhile trailPunct ≠ [] := by
    intro hnil
    rw [List.rdropWhile_eq_nil_iff] at hnil
    obtain ⟨x, hx, hpx⟩ := hmem
    rw [hnil x hx] at hpx
    exact Bool.noConfusion hpx
  exact ⟨hne, head?_eq_of_isPrefixOf (List.rdropWhile_prefix _ _) hne⟩

/-- `_normalize_url` on a whitespace-free string headed by `h`/`w` (the shape
of every trimmed `_AUTO_URL_RE` match) yields a nonempty, whitespace-free
string headed by `h`/`w`. -/
lemma normalizeUrlChars_url_shape {l : List Char}
    (hws : ∀ c ∈ l, pyIsSpace c = false)
    (hh : l.head? = some 'h' ∨ l.head? = some 'w') :
    normalizeUrlChars l ≠ [] ∧
      (∀ c ∈ normalizeUrlChars l, pyIsSpace c = false) ∧
      ((normalizeUrlChars l).head? = some 'h' ∨
        (normalizeUrlChars l).head? = some 'w') := by
  have hstrip : stripChars l = l := by
    unfold stripChars rstripChars lstripChars
    have h1 : l.dropWhile pyIsSpace = l := by
      cases l with
      | nil => rfl
      | cons a t =>
        rw [List.dropWhile_cons_of_neg]
        simp [hws a (List.mem_cons_self a t)]
    rw [h1]
    exact rdropWhile_eq_self_of_getLast? (forall_getLast?_of_forall hws)
  rw [normalizeUrlChars, hstrip]
  set u2 := if lowerStartsWithWWW l then "https://".data ++ l else l with hu2
  have hu2ws : ∀ c ∈ u2, pyIsSpace c = false := by
    rw [hu2]
    split
    · intro c hc
      rcases List.mem_append.mp hc with hc | hc
      · have hlit : ∀ d ∈ "https://".data, pyIsSpace d = false := by decide
        exact hlit c hc
      · exact hws c hc
    · exact hws
  have hu2h : u2.head? = some 'h' ∨ u2.head? = some 'w' := by
    rw [hu2]
    split
    · exact Or.inl rfl
    · exact hh
  obtain ⟨hne, hhead⟩ := rdropWhile_punct_of_url_head hu2h
  refine ⟨hne, ?_, by rw [hhead]; exact hu2h⟩
  intro c hc
  exact hu2ws c ((List.rdropWhile_prefix _ _).subset hc)

/-- The autolink/code-autolink call sites always hand `_add_hyperlink_code`
(and `_add_hyperlink`) a nonempty normalized URL, and re-normalizing it
inside is the identity — the "empty URL" fallback branches are dead there. -/
lemma trimmed_match_normalize {cs raw : List Char}
    (h : autoUrlMatch cs = some raw) :
    normalizeUrlChars (raw.rdropWhile trailPunct) ≠ [] ∧
      normalizeUrlChars (normalizeUrlChars (raw.rdropWhile trailPunct)) =
        normalizeUrlChars (raw.rdropWhile trailPunct) := by
  obtain ⟨hws, hh⟩ := autoUrlMatch_shape h
  obtain ⟨hne0, hhead0⟩ := rdropWhile_punct_of_url_head hh
  have hws0 : ∀ c ∈ raw.rdropWhile trailPunct, pyIsSpace c = false :=
    fun c hc => hws c ((List.rdropWhile_prefix _ _).subset hc)
  have hh0 : (raw.rdropWhile trailPunct).head? = some 'h' ∨
      (raw.rdropWhile trailPunct).head? = some 'w' := by
    rw [hhead0]; exact hh
  obtain ⟨hne1, hws1, _⟩ := normalizeUrlChars_url_shape hws0 hh0
  refine ⟨hne1, ?_⟩
  exact normalizeUrlChars_idem _ (forall_getLast?_of_forall hws1)

/-- The code-styled text displayed by one span emitted inside a code span
(`none` for any non-code element). -/
def codeDisp : Span → Option (List Char)
  | .code t => some t
  | .codeLink d _ => some d
  | _ => none

lemma addInlineCodeGo_spec :
    ∀ (fuel : Nat) (acc cs : List Char), cs.length ≤ fuel →
    (∀ e ∈ addInlineCodeGo fuel acc cs, (codeDisp e).isSome = true) ∧
    ((addInlineCodeGo fuel acc cs).filterMap codeDisp).flatten = acc.reverse ++ cs := by
  intro fuel
  induction fuel with
  | zero =>
    intro acc cs hlen
    have hcs : cs = [] := List.length_eq_zero.mp (Nat.le_zero.mp hlen)
    subst hcs
    rw [addInlineCodeGo]
    unfold addCodeRun
    by_cases hacc : acc.reverse = []
    · simp [hacc]
    · simp [hacc, codeDisp]
  | succ fuel ih =>
    intro acc cs hlen
    cases cs with
    | nil =>
      rw [addInlineCodeGo]
      unfold addCodeRun
      by_cases hacc : acc.reverse = []
      · simp [hacc]
      · simp [hacc, codeDisp]
    | cons c rest =>
      rw [addInlineCodeGo]
      cases h : autoUrlMatch (c :: rest) with
      | none =>
        have ihr := ih (c :: acc) rest (by simp at hlen; omega)
        refine ⟨ihr.1, ?_⟩
        rw [ihr.2]
        simp
      | some raw =>
        dsimp only
        obtain ⟨hne1, hidem⟩ := trimmed_match_normalize h
        rw [if_neg hne1]
        have hdroplen : ((c :: rest).drop raw.length).length ≤ fuel := by
          have hpos := (autoUrlMatch_pos h).1
          simp only [List.length_drop, List.length_cons] at *
          omega
        have ih2 := ih [] ((c :: rest).drop raw.length) hdroplen
        unfold addHyperlinkCodeEv
        rw [hidem]
        rw [if_neg hne1]
        have hsplit : raw.rdropWhile trailPunct ++
            raw.drop (raw.rdropWhile trailPunct).length = raw := by
          set w := raw.rdropWhile trailPunct with hw
          obtain ⟨t, ht⟩ := List.rdropWhile_prefix trailPunct raw
          rw [← hw] at ht
          rw [← ht, List.drop_left]
        have hcs : raw ++ (c :: rest).drop raw.length = c :: rest := by
          obtain ⟨t2, ht2⟩ := (autoUrlMatch_pos h).2
          rw [← ht2, List.drop_left]
        constructor
        · intro e he
          simp only [List.mem_append] at he
          rcases he with ((he | he) | he) | he
          · unfold addCodeRun at he
            split at he
            · simp at he
            · simp at he
              rw [he]
              rfl
          · simp at he
            rw [he]
            rfl
          · unfold addCodeRun at he
            split at he
            · simp at he
            · simp at he
              rw [he]
              rfl
          · exact ih2.1 e he
        · simp only [List.filterMap_append, List.flatten_append, ih2.2]
          have hcr : ∀ l : List Char, ((addCodeRun l).filterMap codeDisp).flatten = l := by
            intro l
            unfold addCodeRun
            split
            · rename_i hl
              simp [hl]
            · simp [codeDisp]
          rw [hcr, hcr]
          simp only [List.filterMap_cons, codeDisp, List.flatten, List.reverse_nil,
            List.nil_append]
          rw [List.append_nil, List.append_assoc, List.append_assoc]
          rw [← List.append_assoc (raw.rdropWhile trailPunct), hsplit, hcs]

/-- `_add_inline_code` events: all spans are code-styled (plain code runs or
code-styled autolinks) and their displayed text concatenates back to the
span's raw contents. -/
lemma addInlineCodeEvents_spec (s : List Char) :
    (∀ e ∈ addInlineCodeEvents s, (codeDisp e).isSome = true) ∧
    ((addInlineCodeEvents s).filterMap codeDisp).flatten = s := by
  unfold addInlineCodeEvents
  split
  · rename_i hs
    rw [hs]
    simp
  · have := addInlineCodeGo_spec s.length [] s (Nat.le_refl _)
    simpa using this

/-- C4 counterexample: a code span's contents ARE re-scanned for bare URLs —
`_add_inline_code` runs `_AUTO_URL_RE` over them and emits a code-styled
hyperlink, so resolving `` `http://a.com` `` yields a hyperlink element, not
a plain code run. -/
theorem code_span_rescanned_for_autolinks :
    ((addInlineCodeEvents "http://a.com".data).all fun e =>
        match e with | Span.code _ => true | _ => false) = false ∧
    addFormattedText (mkValves true true true) "`http://a.com`".data =
      [Span.codeLink "http://a.com".data "http://a.com".data] := by decide

/-- C4 (amended): the contents of an inline code span are never re-tokenized
for emphasis, strikethrough, Markdown links, math, citation markers, or
images — every emitted element is a code-styled run or a code-styled
autolink — and the displayed text concatenates verbatim back to the span's
raw contents; bare `http(s)://`/`www.` URLs inside the span ARE however
autolink-detected and rendered as code-styled hyperlinks. -/
theorem code_span_contents_code_styled_verbatim (s : List Char) :
    (∀ e ∈ addInlineCodeEvents s, (codeDisp e).isSome = true) ∧
    ((addInlineCodeEvents s).filterMap codeDisp).flatten = s :=
  addInlineCodeEvents_spec s

/-! ### C9: size-limited fetch paths -/

/-- The filesystem facts `_read_file_bytes_limited` consults about one path:
existence, the `stat` size (`none` models a raised `OSError`, which the code
swallows), and the byte content. -/
structure FileSys where
  fileExists : Bool
  statSize : Option Nat
  content : List Nat

/-- `_read_file_bytes_limited` (src/export_doc_func.py:1012-1028): refuse a
missing file, refuse early when `stat` reports more than `max_bytes`, then
read at most `max_bytes + 1` bytes and refuse when that many arrived. -/
def readFileBytesLimited (fs : FileSys) (maxBytes : Nat) : Option (List Nat) :=
  if fs.fileExists = false then none
  else if (match fs.statSize with
      | some size => decide (maxBytes < size)
      | none => false) = true then none
  else
    let data := fs.content.take (maxBytes + 1)
    if maxBytes < data.length then none else some data

/-- `s.strip()` followed by `re.sub(r"\s+", "", s)` in
`_decode_base64_limited`. -/
def b64Clean (b64 : List Char) : List Char :=
  (stripChars b64).filter (fun c => !pyIsSpace c)

/-- The cleaned and `=`-padded string handed to `base64.b64decode`. -/
def b64CleanPad (b64 : List Char) : List Char :=
  b64Clean b64 ++ List.replicate ((4 - (b64Clean b64).length % 4) % 4) '='

/-- `_decode_base64_limited` (src/export_doc_func.py:1029-1048), with the
`base64.b64decode(·, validate=False)` library call abstracted as the
parameter `dec` (`none` models `binascii.Error`/`ValueError`): clean the
input, reject an empty or estimated-oversized payload (`len*3//4`), pad,
decode, and enforce the hard post-decode cap. -/
def decodeBase64Limited (dec : List Char → Option (List Nat)) (b64 : List Char)
    (maxBytes : Nat) : Option (List Nat) :=
  if b64Clean b64 = [] then none
  else if maxBytes < (b64Clean b64).length * 3 / 4 then none
  else
    match dec (b64CleanPad b64) with
    | none => none
    | some out => if maxBytes < out.length then none else some out

/-- The environment facts `_read_from_s3` consults: boto3 importability, the
three `S3_*` environment variables, and the body of the addressed object
(`none` models a client/`get_object` exception). -/
structure S3World where
  boto3Available : Bool
  envConfigured : Bool
  objectContent : Option (List Nat)

/-- `_read_from_s3` (src/export_doc_func.py:1057-1102): require boto3, an
`s3://bucket/key` path shape, and full env configuration, then read at most
`max_bytes + 1` bytes of the addressed object's body and refuse when that
many arrived.  (`w.objectContent` is the body of the object addressed by
`s3path`.) -/
def readFromS3 (w : S3World) (s3path : List Char) (maxBytes : Nat) :
    Option (List Nat) :=
  if w.boto3Available = false then none
  else if ("s3://".data.isPrefixOf s3path) = false then none
  else if ((s3path.drop 5).contains '/') = false then none
  else if w.envConfigured = false then none
  else
    match w.objectContent with
    | none => none
    | some body =>
      let data := body.take (maxBytes + 1)
      if maxBytes < data.length then none else some data

/-- The size-capped HTTP fetch of `_image_bytes_from_owui_file_id`
(src/export_doc_func.py:1193-1203 and 1214-1218): on a 2xx status read at
most `max_bytes + 1` bytes and keep the payload only when it fits. -/
def httpFetchLimited (status : Nat) (body : List Nat) (maxBytes : Nat) :
    Option (List Nat) :=
  if 200 ≤ status ∧ status < 300 then
    let data := body.take (maxBytes + 1)
    if data.length ≤ maxBytes then some data else none
  else none

lemma take_limited (content : List Nat) (m : Nat)
    (h : (content.take (m + 1)).length ≤ m) :
    content.take (m + 1) = content ∧ content.length ≤ m := by
  rw [List.length_take] at h
  have hlen : content.length ≤ m := by omega
  exact ⟨List.take_of_length_le (by omega), hlen⟩

/-- C9: every size-limited fetch path fails closed — it returns `none` or the
complete payload, never a truncated prefix, with the payload length within
the cap — and the byte-reading paths consult at most `limit + 1` bytes of
the resource (their result is unchanged under any change of the resource
beyond the first `limit + 1` bytes). -/
theorem size_limited_fetches_fail_closed (m : Nat) (fs : FileSys)
    (dec : List Char → Option (List Nat)) (b64 : List Char)
    (w : S3World) (s3body : List Nat) (s3path : List Char)
    (status : Nat) (htbody : List Nat)
    (hstat : fs.statSize = none ∨ fs.statSize = some fs.content.length)
    (hs3 : w.objectContent = some s3body) :
    (readFileBytesLimited fs m = none ∨
      (readFileBytesLimited fs m = some fs.content ∧ fs.content.length ≤ m))
    ∧ (decodeBase64Limited dec b64 m = none ∨
        ∃ out, dec (b64CleanPad b64) = some out ∧
          decodeBase64Limited dec b64 m = some out ∧ out.length ≤ m)
    ∧ (readFromS3 w s3path m = none ∨
        (readFromS3 w s3path m = some s3body ∧ s3body.length ≤ m))
    ∧ (httpFetchLimited status htbody m = none ∨
        (httpFetchLimited status htbody m = some htbody ∧ htbody.length ≤ m))
    ∧ (∀ fs2 : FileSys, fs2.fileExists = fs.fileExists →
        fs2.statSize = fs.statSize →
        fs2.content.take (m + 1) = fs.content.take (m + 1) →
        readFileBytesLimited fs2 m = readFileBytesLimited fs m)
    ∧ (∀ body2 : List Nat, body2.take (m + 1) = s3body.take (m + 1) →
        readFromS3 ⟨w.boto3Available, w.envConfigured, some body2⟩ s3path m =
          readFromS3 w s3path m)
    ∧ (∀ body2 : List Nat, body2.take (m + 1) = htbody.take (m + 1) →
        httpFetchLimited status body2 m = httpFetchLimited status htbody m) := by
  refine ⟨?_, ?_, ?_, ?_, ?_, ?_, ?_⟩
  · unfold readFileBytesLimited
    split
    · exact Or.inl rfl
    · split
      · exact Or.inl rfl
      · dsimp only
        split
        · exact Or.inl rfl
        · rename_i hfit
          rw [Nat.not_lt] at hfit
          obtain ⟨hfull, hlen⟩ := take_limited fs.content m hfit
          exact Or.inr ⟨by rw [hfull], hlen⟩
  · unfold decodeBase64Limited
    split
    · exact Or.inl rfl
    · split
      · exact Or.inl rfl
      · split
        · exact Or.inl rfl
        · rename_i out hdec
          split
          · exact Or.inl rfl
          · rename_i hfit
            rw [Nat.not_lt] at hfit
            exact Or.inr ⟨out, hdec, rfl, hfit⟩
  · unfold readFromS3
    split
    · exact Or.inl rfl
    · split
      · exact Or.inl rfl
      · split
        · exact Or.inl rfl
        · split
          · exact Or.inl rfl
          · rw [hs3]
            dsimp only
            split
            · exact Or.inl rfl
            · rename_i hfit
              rw [Nat.not_lt] at hfit
              obtain ⟨hfull, hlen⟩ := take_limited s3body m hfit
              exact Or.inr ⟨by rw [hfull], hlen⟩
  · unfold httpFetchLimited
    split
    · dsimp only
      split
      · rename_i hfit
        obtain ⟨hfull, hlen⟩ := take_limited htbody m (by assumption)
        exact Or.inr ⟨by rw [hfull], hlen⟩
      · exact Or.inl rfl
    · exact Or.inl rfl
  · intro fs2 he hs hc
    unfold readFileBytesLimited
    rw [he, hs, hc]
  · intro body2 hb
    unfold readFromS3
    rw [hs3]
    simp only
    rw [hb]
  · intro body2 hb
    unfold httpFetchLimited
    rw [hb]

/-- A concrete two-byte file whose `stat` size is consistent. -/
def fsW : FileSys := ⟨true, some 2, [7, 8]⟩

/-- A concrete reachable S3 object with a one-byte body. -/
def s3W : S3World := ⟨true, true, some [5]⟩

/-- Witness for `size_limited_fetches_fail_closed` at concrete resources and
cap 2. -/
theorem size_limited_fetches_fail_closed_witness :
    ((fsW.statSize = none ∨ fsW.statSize = some fsW.content.length)
      ∧ s3W.objectContent = some [5])
    ∧ (readFileBytesLimited fsW 2 = none ∨
        (readFileBytesLimited fsW 2 = some fsW.content ∧ fsW.content.length ≤ 2)) :=
  ⟨⟨by decide, rfl⟩,
    (size_limited_fetches_fail_closed 2 fsW (fun _ => none) [] s3W [5]
      "s3://b/k".data 200 [9] (by decide) rfl).1⟩

/-! ### C2: citation reference builder (`_build_citation_refs`) -/

/-- The string-valued fields `_build_citation_refs` reads from one metadata
dict (`none` = key absent or non-string). -/
structure CiteMeta where
  source : Option String
  url : Option String
  title : Option String
  name : Option String
  deriving Repr

/-- One source-group: its aligned `document`/`metadata` lists (a `none`
metadata entry models a non-dict element, treated as `\x7b\x7d`) and the
group-level `source` dict fields.  The group-level normalizations
(`or []` / `isinstance` checks on the lists) are applied by the caller of
this model. -/
structure SourceGroup where
  documents : List String
  metadatas : List (Option CiteMeta)
  srcName : Option String
  srcId : Option String
  srcUrls : Option (List String)

/-- `_CitationRef`. -/
structure CitationRef where
  idx : Nat
  anchor : String
  title : String
  url : Option String
  sourceId : String
  deriving Repr, DecidableEq

/-- Python string truthiness: `some ""` and `none` are falsy. -/
def truthyS : Option String → Option String
  | some s => if s = "" then none else some s
  | none => none

/-- The empty metadata dict. -/
def emptyMeta : CiteMeta := ⟨none, none, none, none⟩

/-- `meta.get("source") or src_id_default or "N/A"`. -/
def dedupKey (meta : CiteMeta) (srcId : Option String) : String :=
  ((truthyS meta.source).orElse (fun _ => truthyS srcId)).getD "N/A"

/-- `re.match(r"^https?://", s)`. -/
def startsHttp (s : String) : Bool :=
  "http://".data.isPrefixOf s.data || "https://".data.isPrefixOf s.data

/-- The URL resolution chain of `_build_citation_refs`
(src/export_doc_func.py:1603-1614). -/
def resolveUrl (key : String) (meta : CiteMeta) (srcUrls : Option (List String)) :
    Option String :=
  if startsHttp key then some key
  else if (match meta.url with | some u => startsHttp u | none => false) then meta.url
  else
    match srcUrls with
    | some (u0 :: _) => if startsHttp u0 then some u0 else none
    | _ => none

/-- The title resolution chain of `_build_citation_refs`
(src/export_doc_func.py:1615-1625). -/
def resolveTitle (key : String) (meta : CiteMeta) (srcName : Option String)
    (url : Option String) : String :=
  ((truthyS meta.title).orElse (fun _ =>
    (truthyS meta.name).orElse (fun _ =>
      (match srcName with
        | some n => if stripChars n.data ≠ [] then some n else none
        | none => none).orElse (fun _ => truthyS url)))).getD key

/-- One scanned document occurrence: its dedup key and the fields feeding
title/URL resolution. -/
structure CiteOcc where
  key : String
  meta : CiteMeta
  srcName : Option String
  srcUrls : Option (List String)
  deriving Repr

/-- The reference built for the document occurrence `o` at index `idx`
(anchor `OWUIRef{idx}`). -/
def mkRefOfOcc (idx : Nat) (o : CiteOcc) : CitationRef :=
  let url := resolveUrl o.key o.meta o.srcUrls
  { idx := idx
    anchor := "OWUIRef" ++ toString idx
    title := resolveTitle o.key o.meta o.srcName url
    url := url
    sourceId := o.key }

/-- The metadata dict aligned with document `i` of group `g`
(`metadatas[i] if i < len(metadatas) else \x7b\x7d`, non-dicts replaced by
`\x7b\x7d`). -/
def metaAt (g : SourceGroup) (i : Nat) : CiteMeta :=
  (g.metadatas.getD i none).getD emptyMeta

/-- All document occurrences of the source list, in scan order
(non-dict groups are skipped). -/
def occsOf (sources : List (Option SourceGroup)) : List CiteOcc :=
  (sources.filterMap id).flatMap fun g =>
    (List.range g.documents.length).map fun i =>
      ⟨dedupKey (metaAt g i) g.srcId, metaAt g i, g.srcName, g.srcUrls⟩

/-- One iteration of the `_build_citation_refs` loop body on the running
state (`citation_idx_map`, `refs_by_idx`), both as insertion-ordered
association lists. -/
def citeStep (st : List (String × Nat) × List (Nat × CitationRef)) (o : CiteOcc) :
    List (String × Nat) × List (Nat × CitationRef) :=
  let idxMap := if (st.1.lookup o.key).isSome then st.1
    else st.1 ++ [(o.key, st.1.length + 1)]
  let idx := (idxMap.lookup o.key).getD 0
  if (st.2.lookup idx).isSome then (idxMap, st.2)
  else (idxMap, st.2 ++ [(idx, mkRefOfOcc idx o)])

/-- `_build_citation_refs` (src/export_doc_func.py:1576-1634): fold the loop
body over every document occurrence, then emit
`[refs_by_idx[i] for i in sorted(refs_by_idx.keys())]`. -/
def buildCitationRefs (sources : List (Option SourceGroup)) : List CitationRef :=
  let st := (occsOf sources).foldl citeStep ([], [])
  ((st.2.map Prod.fst).insertionSort (· ≤ ·)).map
    (fun i => (st.2.lookup i).getD ⟨0, "", "", none, ""⟩)

/-- Spec-side dedup: keep the first occurrence of every key, in
first-encounter order (`seen` = keys already encountered). -/
def dedupByKey (seen : List String) : List CiteOcc → List CiteOcc
  | [] => []
  | o :: rest =>
    if o.key ∈ seen then dedupByKey seen rest
    else o :: dedupByKey (o.key :: seen) rest

/-- Index a deduplicated occurrence list with consecutive indices
`n+1, n+2, …`. -/
def indexRefs (n : Nat) : List CiteOcc → List CitationRef
  | [] => []
  | o :: t => mkRefOfOcc (n + 1) o :: indexRefs (n + 1) t

/-- Modelled from the spec (§4.5): the resolved reference list is the
first-occurrence-per-key sublist of the document occurrences, indexed
1,2,… in first-encounter order, each entry resolved from its first-seen
occurrence. -/
def citationRefsSpec (sources : List (Option SourceGroup)) : List CitationRef :=
  indexRefs 0 (dedupByKey [] (occsOf sources))

/-- The `citation_idx_map` contents after registering the deduplicated
occurrences `d` with indices `n+1, …`. -/
def keyMapFrom (n : Nat) : List CiteOcc → List (String × Nat)
  | [] => []
  | o :: t => (o.key, n + 1) :: keyMapFrom (n + 1) t

/-- The `refs_by_idx` contents after registering the deduplicated
occurrences `d` with indices `n+1, …`. -/
def refMapFrom (n : Nat) : List CiteOcc → List (Nat × CitationRef)
  | [] => []
  | o :: t => (n + 1, mkRefOfOcc (n + 1) o) :: refMapFrom (n + 1) t

lemma keyMapFrom_length (d : List CiteOcc) : ∀ n, (keyMapFrom n d).length = d.length := by
  induction d with
  | nil => intro n; rfl
  | cons o t ih => intro n; simp [keyMapFrom, ih]

lemma lookup_cons_self {α β : Type} [BEq α] [LawfulBEq α] (a : α) (b : β)
    (t : List (α × β)) : ((a, b) :: t).lookup a = some b := by
  rw [List.lookup_cons]
  simp

lemma lookup_cons_ne {α β : Type} [BEq α] [LawfulBEq α] (k a : α) (b : β)
    (t : List (α × β)) (h : k ≠ a) : ((a, b) :: t).lookup k = t.lookup k := by
  rw [List.lookup_cons]
  have hbeq : (k == a) = false := by simp [h]
  rw [hbeq]

lemma keyMapFrom_lookup_none (d : List CiteOcc) :
    ∀ n k, k ∉ d.map (·.key) → (keyMapFrom n d).lookup k = none := by
  induction d with
  | nil => intro n k _; rfl
  | cons o t ih =>
    intro n k hk
    simp only [List.map_cons, List.mem_cons] at hk
    push_neg at hk
    rw [keyMapFrom, lookup_cons_ne k o.key _ _ hk.1]
    exact ih (n + 1) k hk.2

lemma keyMapFrom_lookup_isSome (d : List CiteOcc) :
    ∀ n k, ((keyMapFrom n d).lookup k).isSome = true ↔ k ∈ d.map (·.key) := by
  induction d with
  | nil => intro n k; simp [keyMapFrom]
  | cons o t ih =>
    intro n k
    rw [keyMapFrom]
    by_cases hk : k = o.key
    · subst hk
      rw [lookup_cons_self]
      simp
    · rw [lookup_cons_ne k o.key _ _ hk, ih (n + 1) k]
      simp [hk]

lemma refMapFrom_lookup_none (d : List CiteOcc) :
    ∀ n i, n + d.length < i → (refMapFrom n d).lookup i = none := by
  induction d with
  | nil => intro n i _; rfl
  | cons o t ih =>
    intro n i hi
    simp only [List.length_cons] at hi
    rw [refMapFrom, lookup_cons_ne i (n + 1) _ _ (by omega)]
    exact ih (n + 1) i (by omega)

lemma refMapFrom_lookup_isSome (d : List CiteOcc) :
    ∀ n k i, (keyMapFrom n d).lookup k = some i →
      ((refMapFrom n d).lookup i).isSome = true := by
  induction d with
  | nil => intro n k i h; exact Option.noConfusion h
  | cons o t ih =>
    intro n k i h
    rw [keyMapFrom] at h
    by_cases hk : k = o.key
    · subst hk
      rw [lookup_cons_self, Option.some.injEq] at h
      subst h
      rw [refMapFrom, lookup_cons_self]
      rfl
    · rw [lookup_cons_ne k o.key _ _ hk] at h
      rw [refMapFrom]
      by_cases hi : i = n + 1
      · subst hi
        rw [lookup_cons_self]
        rfl
      · rw [lookup_cons_ne i (n + 1) _ _ hi]
        exact ih (n + 1) k i h

lemma lookup_append_of_none {α β : Type} [BEq α] {l1 l2 : List (α × β)} {k : α}
    (h : l1.lookup k = none) : (l1 ++ l2).lookup k = l2.lookup k := by
  induction l1 with
  | nil => rfl
  | cons p t ih =>
    rw [List.cons_append, List.lookup_cons]
    rw [List.lookup_cons] at h
    cases hbeq : (k == p.1) with
    | true => rw [hbeq] at h; simp at h
    | false => rw [hbeq] at h; exact ih h

lemma keyMapFrom_append (d : List CiteOcc) (o : CiteOcc) :
    ∀ n, keyMapFrom n (d ++ [o]) = keyMapFrom n d ++ [(o.key, n + d.length + 1)] := by
  induction d with
  | nil => intro n; rfl
  | cons p t ih =>
    intro n
    rw [List.cons_append, keyMapFrom, keyMapFrom, ih (n + 1)]
    simp only [List.length_cons, List.cons_append]
    have h3 : n + 1 + t.length + 1 = n + (t.length + 1) + 1 := by omega
    rw [h3]

lemma refMapFrom_append (d : List CiteOcc) (o : CiteOcc) :
    ∀ n, refMapFrom n (d ++ [o]) =
      refMapFrom n d ++ [(n + d.length + 1, mkRefOfOcc (n + d.length + 1) o)] := by
  induction d with
  | nil => intro n; rfl
  | cons p t ih =>
    intro n
    rw [List.cons_append, refMapFrom, refMapFrom, ih (n + 1)]
    simp only [List.length_cons, List.cons_append]
    have : n + 1 + t.length + 1 = n + (t.length + 1) + 1 := by omega
    rw [this]

lemma dedupByKey_congr {s1 s2 : List String} (h : ∀ k, k ∈ s1 ↔ k ∈ s2) :
    ∀ l, dedupByKey s1 l = dedupByKey s2 l := by
  intro l
  induction l generalizing s1 s2 with
  | nil => rfl
  | cons o t ih =>
    rw [dedupByKey, dedupByKey]
    by_cases hm : o.key ∈ s1
    · rw [if_pos hm, if_pos ((h o.key).mp hm)]
      exact ih h
    · rw [if_neg hm, if_neg (fun hc => hm ((h o.key).mpr hc))]
      congr 1
      exact ih (by intro k; simp [h k])

lemma citeStep_mem {d : List CiteOcc} {o : CiteOcc}
    (hm : o.key ∈ d.map (·.key)) :
    citeStep (keyMapFrom 0 d, refMapFrom 0 d) o = (keyMapFrom 0 d, refMapFrom 0 d) := by
  have hks : ((keyMapFrom 0 d).lookup o.key).isSome = true :=
    (keyMapFrom_lookup_isSome d 0 o.key).mpr hm
  obtain ⟨i, hi⟩ := Option.isSome_iff_exists.mp hks
  have hrs := refMapFrom_lookup_isSome d 0 o.key i hi
  unfold citeStep
  dsimp only
  rw [if_pos hks, hi]
  simp only [Option.getD_some]
  rw [if_pos hrs]

lemma citeStep_fresh {d : List CiteOcc} {o : CiteOcc}
    (hm : o.key ∉ d.map (·.key)) :
    citeStep (keyMapFrom 0 d, refMapFrom 0 d) o =
      (keyMapFrom 0 (d ++ [o]), refMapFrom 0 (d ++ [o])) := by
  have hlkn : (keyMapFrom 0 d).lookup o.key = none :=
    keyMapFrom_lookup_none d 0 o.key hm
  have hlk2 : ((keyMapFrom 0 d ++ [(o.key, (keyMapFrom 0 d).length + 1)]).lookup
      o.key) = some ((keyMapFrom 0 d).length + 1) := by
    rw [lookup_append_of_none hlkn]
    exact lookup_cons_self _ _ _
  have hrn : (refMapFrom 0 d).lookup ((keyMapFrom 0 d).length + 1) = none := by
    apply refMapFrom_lookup_none
    rw [keyMapFrom_length]
    omega
  have hc1 : ¬(((keyMapFrom 0 d).lookup o.key).isSome = true) := by
    rw [hlkn]
    simp
  have hc2 : ¬(((refMapFrom 0 d).lookup
      ((keyMapFrom 0 d).length + 1)).isSome = true) := by
    rw [hrn]
    simp
  unfold citeStep
  dsimp only
  rw [if_neg hc1, hlk2]
  simp only [Option.getD_some]
  rw [if_neg hc2]
  rw [keyMapFrom_append, refMapFrom_append, keyMapFrom_length]
  simp

/-- The `_build_citation_refs` fold, started from the state registering the
already-deduplicated occurrences `d`, produces the state registering
`d ++ dedupByKey (keys of d) rest`. -/
lemma citeFold_spec (rest : List CiteOcc) :
    ∀ d : List CiteOcc,
      rest.foldl citeStep (keyMapFrom 0 d, refMapFrom 0 d) =
        (keyMapFrom 0 (d ++ dedupByKey (d.map (·.key)) rest),
         refMapFrom 0 (d ++ dedupByKey (d.map (·.key)) rest)) := by
  induction rest with
  | nil => intro d; rw [dedupByKey]; simp
  | cons o t ih =>
    intro d
    rw [List.foldl_cons, dedupByKey]
    by_cases hm : o.key ∈ d.map (·.key)
    · rw [if_pos hm, citeStep_mem hm]
      exact ih d
    · rw [if_neg hm, citeStep_fresh hm, ih (d ++ [o])]
      have hseen : dedupByKey ((d ++ [o]).map (·.key)) t =
          dedupByKey (o.key :: d.map (·.key)) t := by
        apply dedupByKey_congr
        intro k
        simp only [List.map_append, List.map_cons, List.map_nil, List.mem_append,
          List.mem_cons, List.mem_singleton, List.not_mem_nil, or_false]
        tauto
      rw [hseen]
      simp

lemma refMapFrom_fst (d : List CiteOcc) :
    ∀ n, (refMapFrom n d).map Prod.fst = List.range' (n + 1) d.length := by
  induction d with
  | nil => intro n; rfl
  | cons o t ih =>
    intro n
    rw [refMapFrom, List.map_cons, ih (n + 1), List.length_cons, List.range'_succ]

lemma refMapFrom_snd (d : List CiteOcc) :
    ∀ n, (refMapFrom n d).map Prod.snd = indexRefs n d := by
  induction d with
  | nil => intro n; rfl
  | cons o t ih =>
    intro n
    rw [refMapFrom, List.map_cons, ih (n + 1), indexRefs]

lemma map_lookup_self (dflt : CitationRef) :
    ∀ l : List (Nat × CitationRef), (l.map Prod.fst).Nodup →
      (l.map Prod.fst).map (fun i => (l.lookup i).getD dflt) = l.map Prod.snd := by
  intro l
  induction l with
  | nil => intro _; rfl
  | cons p t ih =>
    intro hnd
    simp only [List.map_cons] at hnd ⊢
    rw [List.nodup_cons] at hnd
    congr 1
    · rcases p with ⟨a, r⟩
      rw [lookup_cons_self]
      rfl
    · have hcongr : ∀ i ∈ t.map Prod.fst,
          ((p :: t).lookup i).getD dflt = (t.lookup i).getD dflt := by
        intro i hi
        rcases p with ⟨a, r⟩
        have hne : i ≠ a := fun hc => hnd.1 (hc ▸ hi)
        rw [lookup_cons_ne i a _ _ hne]
      rw [List.map_congr_left hcongr]
      exact ih hnd.2

lemma indexRefs_idx (d : List CiteOcc) :
    ∀ n, (indexRefs n d).map (·.idx) = List.range' (n + 1) d.length := by
  induction d with
  | nil => intro n; rfl
  | cons o t ih =>
    intro n
    rw [indexRefs, List.map_cons, ih (n + 1), List.length_cons, List.range'_succ]
    rfl

lemma indexRefs_key (d : List CiteOcc) :
    ∀ n, (indexRefs n d).map (·.sourceId) = d.map (·.key) := by
  induction d with
  | nil => intro n; rfl
  | cons o t ih =>
    intro n
    rw [indexRefs, List.map_cons, ih (n + 1), List.map_cons]
    rfl

/-- C2: `_build_citation_refs` refines its specification — the returned
reference list is exactly the first-occurrence-per-dedup-key sublist of the
scanned document occurrences (dedup key: metadata `source`, else group
`source.id`, else `"N/A"`), indexed 1..M in first-encounter order with each
entry's title/URL resolved from its first-seen occurrence; in particular,
for M unique keys among K total documents the list has exactly M entries
with indices 1..M regardless of K. -/
theorem citation_dedup_first_encounter (sources : List (Option SourceGroup)) :
    buildCitationRefs sources = citationRefsSpec sources
    ∧ (buildCitationRefs sources).map (·.idx)
        = List.range' 1 (dedupByKey [] (occsOf sources)).length
    ∧ (buildCitationRefs sources).map (·.sourceId)
        = (dedupByKey [] (occsOf sources)).map (·.key) := by
  have hmain : buildCitationRefs sources = citationRefsSpec sources := by
    unfold buildCitationRefs
    have hinit : (([], []) : List (String × Nat) × List (Nat × CitationRef))
        = (keyMapFrom 0 [], refMapFrom 0 []) := rfl
    rw [hinit, citeFold_spec (occsOf sources) []]
    dsimp only
    rw [show ([] : List CiteOcc) ++ dedupByKey (([] : List CiteOcc).map (·.key))
        (occsOf sources) = dedupByKey [] (occsOf sources) from by simp]
    have hsorted : List.Sorted (· ≤ ·)
        (List.range' (0 + 1) (dedupByKey [] (occsOf sources)).length) := by
      have hlt := List.pairwise_lt_range' (0 + 1)
        (dedupByKey [] (occsOf sources)).length
      exact hlt.imp Nat.le_of_lt
    rw [refMapFrom_fst, hsorted.insertionSort_eq, ← refMapFrom_fst]
    rw [map_lookup_self _ _ (by
      rw [refMapFrom_fst]
      exact List.nodup_range' _ _)]
    rw [refMapFrom_snd]
    rfl
  refine ⟨hmain, ?_, ?_⟩
  · rw [hmain]
    unfold citationRefsSpec
    exact indexRefs_idx _ 0
  · rw [hmain]
    unfold citationRefsSpec
    exact indexRefs_key _ 0


/-! ## Table layout (`add_table`, lines 2495-2578) -/

/-- Python `s.strip(chars)` for a single-predicate character class. -/
def stripBy (p : Char → Bool) (l : List Char) : List Char :=
  (l.dropWhile p).rdropWhile p

/-- Python `s.split(sep)` for a one-character separator: keeps empty parts,
`"".split(sep) = [""]`. -/
def splitOnChar (sep : Char) : List Char → List (List Char)
  | [] => [[]]
  | c :: rest =>
      if c = sep then [] :: splitOnChar sep rest
      else
        match splitOnChar sep rest with
        | [] => [[c]]
        | h :: t => (c :: h) :: t

/-- `_split_row` (line 2502): strip whitespace, trim surrounding pipes, split on
the remaining pipes, strip each cell. -/
def splitRowCells (line : List Char) : List (List Char) :=
  (splitOnChar '|' (stripBy (· = '|') (stripChars line))).map stripChars

/-- One cell of a Markdown separator row: full match of `:?-\x7b3,\x7d:?` on the
stripped cell (line 2513). -/
def isSepCell (cell : List Char) : Bool :=
  let s0 := stripChars cell
  let s1 := if s0.head? = some ':' then s0.tail else s0
  let s2 := if s1.getLast? = some ':' then s1.dropLast else s1
  decide (3 ≤ s2.length) && s2.all (· = '-')

/-- `_is_separator_row` (line 2506): nonempty and every cell is a separator cell. -/
def isSeparatorRow (cells : List (List Char)) : Bool :=
  !cells.isEmpty && cells.all isSepCell

/-- Line filter of `raw_rows` (line 2528): `l.strip().startswith("|")`. -/
def isTableLine (l : List Char) : Bool :=
  decide ((stripChars l).head? = some '|')

/-- Fuel-indexed model of the backtick-pair substitution from `_plain_len`
(line 2550): replace each backtick pair with nonempty contents by the contents,
scanning left to right.  The fuel `s.length` always suffices; exhaustion returns
the remainder unchanged. -/
def subBtickPairs : Nat → List Char → List Char
  | _, [] => []
  | 0, cs => cs
  | fuel + 1, c :: rest =>
      if c = btick then
        let content := rest.takeWhile (fun d => d != btick)
        match rest.drop content.length with
        | [] => c :: subBtickPairs fuel rest
        | _ :: rest2 =>
            if content.isEmpty then c :: subBtickPairs fuel rest
            else content ++ subBtickPairs fuel rest2
      else c :: subBtickPairs fuel rest

/-- Fuel-indexed model of the Markdown-link substitution of `_plain_len`
(line 2551): `[text](url)` with nonempty text and url is replaced by `text`. -/
def subLinkPairs : Nat → List Char → List Char
  | _, [] => []
  | 0, cs => cs
  | fuel + 1, c :: rest =>
      if c = '[' then
        let txt := rest.takeWhile (fun d => d != ']')
        match rest.drop txt.length with
        | ']' :: '(' :: rest2 =>
            let url := rest2.takeWhile (fun d => d != ')')
            match rest2.drop url.length with
            | ')' :: rest3 =>
                if txt.isEmpty || url.isEmpty then c :: subLinkPairs fuel rest
                else txt ++ subLinkPairs fuel rest3
            | _ => c :: subLinkPairs fuel rest
        | _ => c :: subLinkPairs fuel rest
      else c :: subLinkPairs fuel rest

/-- `re.sub(r"\s+", " ", t)` (line 2552): collapse each whitespace run to a
single space. -/
def collapseWs : List Char → List Char
  | [] => []
  | [c] => [if pyIsSpace c then ' ' else c]
  | c :: d :: rest =>
      if pyIsSpace c && pyIsSpace d then collapseWs (d :: rest)
      else (if pyIsSpace c then ' ' else c) :: collapseWs (d :: rest)

/-- `_plain_len` (lines 2549-2553). -/
def plainLen (s : List Char) : Nat :=
  let t1 := subBtickPairs s.length s
  let t2 := subLinkPairs t1.length t1
  (stripChars (collapseWs t2)).length

/-- `raw_rows` (line 2528). -/
def rawRows (tableLines : List (List Char)) : List (List (List Char)) :=
  (tableLines.filter isTableLine).map splitRowCells

/-- Row padding to `num_cols` cells (lines 2535-2536). -/
def padCells (numCols : Nat) (r : List (List Char)) : List (List Char) :=
  r ++ List.replicate (numCols - r.length) []

/-- Per-column weight (lines 2554-2559): the maximum `_plain_len` over the
column's cells, clamped to `[1, 40]`. -/
def colWeight (headerP : List (List Char)) (bodyP : List (List (List Char)))
    (ci : Nat) : Nat :=
  let ml := (bodyP.map (fun r => plainLen (r.getD ci []))).foldl max
    (plainLen (headerP.getD ci []))
  max 1 (min ml 40)

/-- The residual-distribution loop (lines 2567-2574): while `rem > 0` and the
order list is nonempty, add one unit to `widths[order[oi % len(order)]]`. -/
def distribute (order : List Nat) : Nat → Nat → List Nat → List Nat
  | _, 0, ws => ws
  | oi, rem + 1, ws =>
      if order.isEmpty then ws
      else
        let k := order.getD (oi % order.length) 0
        distribute order (oi + 1) rem (ws.set k (ws.getD k 0 + 1))

/-- Width resolution (lines 2546-2574) for a given available width and weight
list.  `int(Inches(0.55)) = 502920` EMU; `int(available_width * w / sum_w)` is
modelled as exact floor division, which agrees with Python's float division for
all EMU-sized page geometries; `sorted(range(num_cols), key=..., reverse=True)`
is a stable descending sort, modelled by `insertionSort` with the reversed
comparison. -/
def resolveWidths (avail : Nat) (weights : List Nat) : List Nat :=
  let n := weights.length
  let minCol := max 502920 (avail / max 1 (n * 3))
  let sumW := if weights.sum = 0 then 1 else weights.sum
  let widths := weights.map (fun w => max minCol (avail * w / sumW))
  let widths2 := if avail < widths.sum then
      List.replicate n (max 1 (avail / max 1 n))
    else widths
  if widths2.sum < avail then
    distribute ((List.range n).insertionSort
      (fun i j => weights.getD j 0 ≤ weights.getD i 0)) 0
      (avail - widths2.sum) widths2
  else widths2

/-- `_available_block_width` (lines 1916-1918): page width minus the two
horizontal margins (all nonnegative EMU lengths). -/
def availableBlockWidth (pageWidth leftMargin rightMargin : Nat) : Nat :=
  pageWidth - leftMargin - rightMargin

/-- The column widths `add_table` resolves for the given table lines (lines
2528-2574); `none` when no line starts with a pipe (the early return at
line 2530). -/
def addTableWidths (avail : Nat) (tableLines : List (List Char)) :
    Option (List Nat) :=
  match rawRows tableLines with
  | [] => none
  | header :: rest =>
      let sep1 := match rest with
        | r1 :: _ => isSeparatorRow r1
        | [] => false
      let body := if sep1 then rest.tail else rest
      let numCols := (body.map List.length).foldl max header.length
      let headerP := padCells numCols header
      let bodyP := body.map (padCells numCols)
      let weights := (List.range numCols).map (colWeight headerP bodyP)
      some (resolveWidths avail weights)


/-- Adding one unit at a valid index raises the list sum by one. -/
theorem sum_set_getD (ws : List Nat) (k : Nat) (hk : k < ws.length) :
    (ws.set k (ws.getD k 0 + 1)).sum = ws.sum + 1 := by
  induction ws generalizing k with
  | nil => simp at hk
  | cons a t ih =>
    cases k with
    | zero => simp [List.sum_cons]; omega
    | succ k =>
      have hk2 : k < t.length := by simpa using hk
      simp only [List.set_cons_succ, List.getD_cons_succ, List.sum_cons]
      rw [ih k hk2]
      omega

/-- The residual-distribution loop preserves the length of the width list. -/
theorem distribute_length (order : List Nat) (rem : Nat) :
    ∀ (oi : Nat) (ws : List Nat), (distribute order oi rem ws).length = ws.length := by
  induction rem with
  | zero => intro oi ws; rfl
  | succ rem ih =>
    intro oi ws
    rw [distribute]
    split
    · rfl
    · rw [ih, List.length_set]

/-- The residual-distribution loop adds exactly `rem` units in total, provided
the order list is nonempty and indexes into the width list. -/
theorem distribute_sum (order : List Nat) (hord : order ≠ []) (rem : Nat) :
    ∀ (oi : Nat) (ws : List Nat), (∀ i ∈ order, i < ws.length) →
    (distribute order oi rem ws).sum = ws.sum + rem := by
  induction rem with
  | zero => intro oi ws _; rfl
  | succ rem ih =>
    intro oi ws h
    have hne : order.isEmpty = false := by
      cases order
      · exact absurd rfl hord
      · rfl
    rw [distribute, hne]
    simp only [Bool.false_eq_true, if_false]
    rw [ih (oi + 1) _ (fun i hi => by rw [List.length_set]; exact h i hi)]
    have hlen : 0 < order.length := List.length_pos.2 hord
    have hkmem : order.getD (oi % order.length) 0 ∈ order := by
      rw [List.getD_eq_getElem _ _ (Nat.mod_lt _ hlen)]
      exact List.getElem_mem _
    rw [sum_set_getD _ _ (h _ hkmem)]
    omega

/-- The weight-descending column order is nonempty and indexes into `range n`. -/
theorem sorted_range_props (n : Nat) (r : Nat → Nat → Prop) [DecidableRel r]
    (hn : 1 ≤ n) :
    (List.range n).insertionSort r ≠ []
    ∧ ∀ i ∈ (List.range n).insertionSort r, i < n := by
  have hperm := List.perm_insertionSort r (List.range n)
  constructor
  · intro hnil
    have hl := hperm.length_eq
    rw [hnil, List.length_range] at hl
    simp at hl
    omega
  · intro i hi
    exact List.mem_range.1 (hperm.mem_iff.1 hi)

/-- Width resolution preserves the number of columns. -/
theorem resolveWidths_length (avail : Nat) (weights : List Nat) :
    (resolveWidths avail weights).length = weights.length := by
  unfold resolveWidths
  dsimp only
  repeat' split
  all_goals simp [distribute_length]

/-- The equal-division fallback never exceeds the available width. -/
theorem replicate_even_sum_le (avail n : Nat) (h1 : 1 ≤ n) (h2 : n ≤ avail) :
    (List.replicate n (max 1 (avail / max 1 n))).sum ≤ avail := by
  rw [List.sum_replicate, smul_eq_mul, max_eq_right h1,
    max_eq_right ((Nat.one_le_div_iff (by omega)).2 h2)]
  calc n * (avail / n) = (avail / n) * n := Nat.mul_comm _ _
    _ ≤ avail := Nat.div_mul_le_self _ _

/-- The resolved widths sum exactly to the available width whenever there is at
least one column and the available width is at least one unit per column. -/
theorem resolveWidths_sum (avail : Nat) (weights : List Nat)
    (h1 : 1 ≤ weights.length) (h2 : weights.length ≤ avail) :
    (resolveWidths avail weights).sum = avail := by
  have hmain : ∀ (ws2 : List Nat), ws2.length = weights.length → ws2.sum ≤ avail →
      (if ws2.sum < avail then
         distribute ((List.range weights.length).insertionSort
           (fun i j => weights.getD j 0 ≤ weights.getD i 0)) 0
           (avail - ws2.sum) ws2
       else ws2).sum = avail := by
    intro ws2 hlen hle
    by_cases hlt : ws2.sum < avail
    · rw [if_pos hlt]
      obtain ⟨hne, hmem⟩ :=
        sorted_range_props weights.length
          (fun i j => weights.getD j 0 ≤ weights.getD i 0) h1
      rw [distribute_sum _ hne _ 0 ws2 (fun i hi => by rw [hlen]; exact hmem i hi)]
      omega
    · rw [if_neg hlt]
      omega
  unfold resolveWidths
  dsimp only
  apply hmain
  · repeat' split
    all_goals simp
  · repeat' split
    all_goals first
      | omega
      | exact replicate_even_sum_le avail weights.length h1 h2


/-- **C1.** For every Markdown table laid out by `add_table` with between 1 and
20 columns and any cell contents, the sum of the resolved per-column widths
equals the available content width (page width minus left and right margins)
exactly, the residual after the proportional pass being distributed one unit at
a time over the weight-descending column order (hypothesis: the available width
is at least one EMU per column, which holds for every real page geometry). -/
theorem table_width_invariant (pageWidth leftMargin rightMargin : Nat)
    (tableLines : List (List Char)) (ws : List Nat)
    (hres : addTableWidths (availableBlockWidth pageWidth leftMargin rightMargin)
      tableLines = some ws)
    (h1 : 1 ≤ ws.length) (h20 : ws.length ≤ 20)
    (hfit : ws.length ≤ availableBlockWidth pageWidth leftMargin rightMargin) :
    ws.sum = availableBlockWidth pageWidth leftMargin rightMargin := by
  unfold addTableWidths at hres
  split at hres
  · exact Option.noConfusion hres
  · dsimp only at hres
    rw [Option.some.injEq] at hres
    subst hres
    rw [resolveWidths_length] at h1 hfit
    exact resolveWidths_sum _ _ h1 hfit

theorem table_width_invariant_witness :
    addTableWidths (availableBlockWidth 7772400 914400 914400)
        [("| a | b |").data, ("| --- | --- |").data, ("| xx | y |").data]
      = some [3962400, 1981200]
    ∧ ([3962400, 1981200] : List Nat).sum
      = availableBlockWidth 7772400 914400 914400 :=
  ⟨by decide, table_width_invariant 7772400 914400 914400
    [("| a | b |").data, ("| --- | --- |").data, ("| xx | y |").data]
    [3962400, 1981200] (by decide) (by decide) (by decide) (by decide)⟩


/-! ## The `markdown_to_docx` line loop (lines 1331-1517) -/

/-- Document-level events recorded by the line loop: each constructor is one
call the loop makes on the docx assembler (`_add_display_equation`,
`add_code_block`, `_insert_mermaid_placeholder`, `add_table`, `add_heading`,
`add_list_to_doc`, `add_blockquote`, `add_horizontal_rule`, `add_paragraph`). -/
inductive Block where
  | displayEq (latex : List Char)
  | codeBlock (text : List Char) (lang : List Char)
  | mermaid (text : List Char)
  | tableB (tableLines : List (List Char))
  | heading (text : List Char) (level : Nat)
  | listB (items : List (Nat × List Char)) (ordered : Option Bool)
  | blockquote (text : List Char)
  | hrule
  | para (text : List Char)
  deriving DecidableEq, Repr

/-- Mutable loop state (lines 1317-1328): code-fence, math-fence and list
accumulators.  `listType = some true` models `"ordered"`, `some false`
`"unordered"`, `none` the initial `None`. -/
structure MDState where
  inCodeBlock : Bool
  codeContent : List (List Char)
  codeLang : List Char
  inMathBlock : Bool
  mathDelim : List Char
  mathLines : List (List Char)
  inList : Bool
  listItems : List (Nat × List Char)
  listType : Option Bool
  deriving DecidableEq, Repr

/-- Initial loop state. -/
def initState : MDState :=
  ⟨false, [], [], false, [], [], false, [], none⟩

/-- `_extract_single_line_math` (lines 1523-1533): a stripped line fully of the
form `\[...\]` or `$$...$$` yields the stripped middle (lines carry no
newline, so `.*` is everything in between). -/
def extractSingleLineMath (line : List Char) : Option (List Char) :=
  let s := stripChars line
  if ['\\', '['].isPrefixOf s ∧ ['\\', ']'].isSuffixOf s ∧ 4 ≤ s.length then
    some (stripChars ((s.drop 2).dropLast.dropLast))
  else if ['$', '$'].isPrefixOf s ∧ ['$', '$'].isSuffixOf s ∧ 4 ≤ s.length then
    some (stripChars ((s.drop 2).dropLast.dropLast))
  else none

/-- The heading pattern on the stripped line (line 1429): one to six hashes,
mandatory whitespace, then the remaining text. -/
def headerMatch (s : List Char) : Option (Nat × List Char) :=
  let hs := s.takeWhile (· = '#')
  let rest := s.drop hs.length
  let ws := rest.takeWhile pyIsSpace
  if 1 ≤ hs.length ∧ hs.length ≤ 6 ∧ ws ≠ [] ∧ rest.drop ws.length ≠ [] then
    some (hs.length, rest.drop ws.length)
  else none

/-- The tail of the list-item patterns (lines 1442, 1455) after the marker:
mandatory whitespace then at least one character; when everything after the
marker is whitespace the regex backtracks and captures the final whitespace
character, so two trailing whitespace characters still match. -/
def bulletTail (rest2 : List Char) : Option (List Char) :=
  let ws := rest2.takeWhile pyIsSpace
  let content := rest2.drop ws.length
  if ws.isEmpty then none
  else if !content.isEmpty then some content
  else if 2 ≤ ws.length then some (ws.drop (ws.length - 1))
  else none

/-- The unordered-list pattern (line 1442) on the raw line: indent, one of
`-`/`*`/`+`, then `bulletTail`; the indent level is half the indent width. -/
def ulistMatch (line : List Char) : Option (Nat × List Char) :=
  let ind := line.takeWhile pyIsSpace
  match line.drop ind.length with
  | c :: rest2 =>
      if c = '-' ∨ c = '*' ∨ c = '+' then
        (bulletTail rest2).map (fun t => (ind.length / 2, t))
      else none
  | [] => none

/-- The ordered-list pattern (line 1455) on the raw line: indent, digits, `.`
or `)`, then `bulletTail`. -/
def olistMatch (line : List Char) : Option (Nat × List Char) :=
  let ind := line.takeWhile pyIsSpace
  let after := line.drop ind.length
  let ds := after.takeWhile pyIsDigit
  match after.drop ds.length with
  | c :: rest2 =>
      if ds ≠ [] ∧ (c = '.' ∨ c = ')') then
        (bulletTail rest2).map (fun t => (ind.length / 2, t))
      else none
  | [] => none

/-- The horizontal-rule pattern (line 1484) on the stripped line. -/
def isHruleLine (s : List Char) : Bool :=
  decide (3 ≤ s.length) && s.all (fun c => c = '-' || c = '*' || c = '_')

/-- `re.sub(r"^>\s?", "", l)` (line 1478) on the raw blockquote line. -/
def stripQuoteMark (l : List Char) : List Char :=
  match l with
  | '>' :: rest =>
      match rest with
      | c :: r => if pyIsSpace c then r else rest
      | [] => []
  | _ => l

/-- The blockquote collection condition (lines 1468, 1476). -/
def isQuoteLine (l : List Char) : Bool :=
  decide ((stripChars l).head? = some '>')

/-- Flush a pending list (the `if in_list and list_items:` sites). -/
def flushList (st : MDState) : List Block × MDState :=
  if st.inList ∧ st.listItems ≠ [] then
    ([Block.listB st.listItems st.listType],
      { st with listItems := [], inList := false })
  else ([], st)

/-- The display-math section of the loop body (lines 1346-1382).  Returns the
emitted events and updated state when one of its `continue` paths fires,
`none` when control falls through to the code-fence handling. -/
def mathPhase (mathEnable : Bool) (st : MDState) (line : List Char) :
    Option (List Block × MDState) :=
  if st.inCodeBlock || !mathEnable then none
  else
    match extractSingleLineMath line with
    | some latex =>
        let (evs, st1) := flushList st
        some (evs ++ [Block.displayEq latex], st1)
    | none =>
        if !st.inMathBlock then
          let s := stripChars line
          if s = ['\\', '['] ∨ s = ['$', '$'] then
            let (evs, st1) := flushList st
            some (evs, { st1 with inMathBlock := true, mathDelim := s,
                                  mathLines := [] })
          else none
        else
          let s := stripChars line
          let close := if st.mathDelim = ['\\', '['] then ['\\', ']']
                       else ['$', '$']
          if s = close then
            some ([Block.displayEq
                     (stripChars (List.intercalate ['\n'] st.mathLines))],
              { st with inMathBlock := false, mathDelim := [], mathLines := [] })
          else some ([], { st with mathLines := st.mathLines ++ [line] })

/-- The post-loop flushes (lines 1509-1517): a pending list is emitted, and an
open math block with accumulated lines is echoed as literal paragraphs wrapped
in `\[` / `\]`.  An open code fence is not flushed. -/
def mdFinish (st : MDState) : List Block :=
  (if st.inList ∧ st.listItems ≠ [] then [Block.listB st.listItems st.listType]
   else [])
  ++ (if st.inMathBlock ∧ st.mathLines ≠ [] then
        [Block.para ['\\', '[']] ++ st.mathLines.map Block.para
          ++ [Block.para ['\\', ']']]
      else [])

/-- One fuel-indexed pass of the `while i < len(lines)` loop (lines 1331-1508)
followed by the post-loop flushes.  Every iteration consumes at least one line,
so fuel `lines.length` always suffices; exhaustion (unreachable) flushes. -/
def mdRun (mathEnable : Bool) : Nat → MDState → List (List Char) → List Block
  | _, st, [] => mdFinish st
  | 0, st, _ :: _ => mdFinish st
  | fuel + 1, st, line :: rest =>
      match mathPhase mathEnable st line with
      | some (evs, st1) => evs ++ mdRun mathEnable fuel st1 rest
      | none =>
          if [btick, btick, btick].isPrefixOf (stripChars line) then
            if !st.inCodeBlock then
              let (evs, st1) := flushList st
              let info := stripChars ((stripChars line).drop 3)
              let lang := info.takeWhile (fun c => !pyIsSpace c)
              evs ++ mdRun mathEnable fuel
                { st1 with inCodeBlock := true, codeLang := lang,
                           codeContent := [] } rest
            else
              let body := List.intercalate ['\n'] st.codeContent
              let ev := if st.codeLang.map pyLowerChar = ("mermaid").data then
                  Block.mermaid body
                else Block.codeBlock body st.codeLang
              ev :: mdRun mathEnable fuel
                { st with inCodeBlock := false, codeContent := [],
                          codeLang := [] } rest
          else if st.inCodeBlock then
            mdRun mathEnable fuel
              { st with codeContent := st.codeContent ++ [line] } rest
          else if isTableLine line
              && decide ((stripChars line).getLast? = some '|') then
            let (evs, st1) := flushList st
            evs ++ [Block.tableB ((line :: rest).takeWhile isTableLine)]
              ++ mdRun mathEnable fuel st1 ((line :: rest).dropWhile isTableLine)
          else
            match headerMatch (stripChars line) with
            | some (level, text) =>
                let (evs, st1) := flushList st
                evs ++ [Block.heading text level]
                  ++ mdRun mathEnable fuel st1 rest
            | none =>
                match ulistMatch line with
                | some (indent, text) =>
                    if st.inList ∧ st.listType = some false then
                      mdRun mathEnable fuel
                        { st with listItems := st.listItems ++ [(indent, text)] }
                        rest
                    else
                      let evs := if st.inList ∧ st.listItems ≠ [] then
                          [Block.listB st.listItems st.listType]
                        else []
                      let items1 := if st.inList ∧ st.listItems ≠ [] then []
                        else st.listItems
                      evs ++ mdRun mathEnable fuel
                        { st with inList := true, listType := some false,
                                  listItems := items1 ++ [(indent, text)] } rest
                | none =>
                    match olistMatch line with
                    | some (indent, text) =>
                        if st.inList ∧ st.listType = some true then
                          mdRun mathEnable fuel
                            { st with
                                listItems := st.listItems ++ [(indent, text)] }
                            rest
                        else
                          let evs := if st.inList ∧ st.listItems ≠ [] then
                              [Block.listB st.listItems st.listType]
                            else []
                          let items1 := if st.inList ∧ st.listItems ≠ [] then []
                            else st.listItems
                          evs ++ mdRun mathEnable fuel
                            { st with inList := true, listType := some true,
                                      listItems := items1 ++ [(indent, text)] }
                            rest
                    | none =>
                        if isQuoteLine line then
                          let (evs, st1) := flushList st
                          let qs := (line :: rest).takeWhile isQuoteLine
                          evs ++ [Block.blockquote (List.intercalate ['\n']
                              (qs.map stripQuoteMark))]
                            ++ mdRun mathEnable fuel st1
                              ((line :: rest).dropWhile isQuoteLine)
                        else if isHruleLine (stripChars line) then
                          let (evs, st1) := flushList st
                          evs ++ [Block.hrule] ++ mdRun mathEnable fuel st1 rest
                        else if stripChars line = [] then
                          let (evs, st1) := flushList st
                          evs ++ mdRun mathEnable fuel st1 rest
                        else
                          let (evs, st1) := flushList st
                          evs ++ [Block.para line]
                            ++ mdRun mathEnable fuel st1 rest

/-- The whole line loop of `markdown_to_docx` on a list of newline-free lines
(the caller splits the text on newlines at line 1316). -/
def assembleLines (mathEnable : Bool) (lines : List (List Char)) : List Block :=
  mdRun mathEnable lines.length initState lines


/-- The loop state while inside an open display-math block. -/
def mathSt (delim : List Char) (acc : List (List Char)) : MDState :=
  ⟨false, [], [], true, delim, acc, false, [], none⟩

/-- While a math block is open, every line that is neither single-line math nor
the closing delimiter is appended to the accumulator, through to the end of the
input. -/
theorem math_block_append_run (delim : List Char) :
    ∀ (body : List (List Char)) (fuel : Nat) (acc : List (List Char)),
    body.length ≤ fuel →
    (∀ l ∈ body, extractSingleLineMath l = none ∧
       stripChars l ≠ (if delim = ['\\', '['] then ['\\', ']'] else ['$', '$'])) →
    mdRun true fuel (mathSt delim acc) body
      = mdFinish (mathSt delim (acc ++ body)) := by
  intro body
  induction body with
  | nil =>
    intro fuel acc _ _
    rw [List.append_nil]
    cases fuel <;> rfl
  | cons l body ih =>
    intro fuel acc hfuel hl
    obtain ⟨hl1, hl2⟩ := hl l (List.mem_cons_self _ _)
    cases fuel with
    | zero => simp at hfuel
    | succ fuel =>
      rw [mdRun]
      have hmp : mathPhase true (mathSt delim acc) l
          = some ([], mathSt delim (acc ++ [l])) := by
        unfold mathPhase
        rw [hl1]
        dsimp only [mathSt]
        simp only [Bool.not_true, Bool.false_or, Bool.false_eq_true, if_false]
        rw [if_neg hl2]
      rw [hmp]
      dsimp only
      rw [List.nil_append]
      rw [ih fuel (acc ++ [l]) (by simp at hfuel; omega)
        (fun x hx => hl x (List.mem_cons_of_mem _ hx))]
      rw [List.append_assoc]
      rfl

/-- **C5 (counterexample).** A `$$` display-math block left open at end of
input is flushed wrapped in `\[` / `\]`, not in its original `$$` delimiters. -/
theorem unterminated_math_dollar_delim_not_preserved :
    assembleLines true [['$', '$'], ['x']]
      = [Block.para ['\\', '['], Block.para ['x'], Block.para ['\\', ']']]
    ∧ ¬ assembleLines true [['$', '$'], ['x']]
      = [Block.para ['$', '$'], Block.para ['x'], Block.para ['$', '$']] := by
  decide

/-- **C5 (amended).** If the input ends while a display-math block is open and
at least one line was accumulated, the accumulated lines are emitted verbatim
as literal paragraphs and are never silently dropped; the wrapper paragraphs
are always `\[` and `\]`, regardless of whether `\[` or `$$` opened the
block. -/
theorem unterminated_math_block_flushed (delim : List Char)
    (body : List (List Char))
    (hdelim : delim = ['\\', '['] ∨ delim = ['$', '$'])
    (hbody : body ≠ [])
    (hlines : ∀ l ∈ body, extractSingleLineMath l = none ∧
       stripChars l ≠ (if delim = ['\\', '['] then ['\\', ']'] else ['$', '$'])) :
    assembleLines true (delim :: body)
      = Block.para ['\\', '['] :: body.map Block.para
          ++ [Block.para ['\\', ']']] := by
  unfold assembleLines
  rw [show (delim :: body).length = body.length + 1 from rfl]
  rw [mdRun]
  have hmp : mathPhase true initState delim = some ([], mathSt delim []) := by
    rcases hdelim with h | h <;> subst h <;> rfl
  rw [hmp]
  dsimp only
  rw [List.nil_append]
  rw [math_block_append_run delim body body.length [] (le_refl _) hlines]
  rw [List.nil_append]
  simp [mdFinish, mathSt, hbody]

theorem unterminated_math_block_flushed_witness :
    assembleLines true (['$', '$'] :: [['y']])
      = Block.para ['\\', '['] :: [['y']].map Block.para
          ++ [Block.para ['\\', ']']] :=
  unterminated_math_block_flushed ['$', '$'] [['y']] (Or.inr rfl) (by decide)
    (by decide)

/-- **C6.** Contrary to the claim, a code fence left open at end of input is
not implicitly closed: the accumulated fence body is silently discarded (the
post-loop flushes at lines 1509-1517 cover only lists and math blocks), while
the same fence explicitly closed emits the code block. -/
theorem unterminated_code_fence_dropped :
    assembleLines true [("```python").data, ['x', ' ', '=', ' ', '1']] = []
    ∧ assembleLines true
        [("```python").data, ['x', ' ', '=', ' ', '1'], ("```").data]
      = [Block.codeBlock ['x', ' ', '=', ' ', '1'] ("python").data] := by
  decide


/-! ## Mermaid placeholder seed (`_insert_mermaid_placeholder`, lines 1746-1751) -/

/-- Truncation to a 32-bit word. -/
def w32 (n : Nat) : Nat := n % 4294967296

/-- 32-bit right rotation of a word `x < 2^32`. -/
def rotr (x n : Nat) : Nat := x / 2 ^ n + x % 2 ^ n * 2 ^ (32 - n)

/-- SHA-256 round constants. -/
def K256 : List Nat :=
  [1116352408, 1899447441, 3049323471, 3921009573, 961987163, 1508970993,
   2453635748, 2870763221, 3624381080, 310598401, 607225278, 1426881987,
   1925078388, 2162078206, 2614888103, 3248222580, 3835390401, 4022224774,
   264347078, 604807628, 770255983, 1249150122, 1555081692, 1996064986,
   2554220882, 2821834349, 2952996808, 3210313671, 3336571891, 3584528711,
   113926993, 338241895, 666307205, 773529912, 1294757372, 1396182291,
   1695183700, 1986661051, 2177026350, 2456956037, 2730485921, 2820302411,
   3259730800, 3345764771, 3516065817, 3600352804, 4094571909, 275423344,
   430227734, 506948616, 659060556, 883997877, 958139571, 1322822218,
   1537002063, 1747873779, 1955562222, 2024104815, 2227730452, 2361852424,
   2428436474, 2756734187, 3204031479, 3329325298]

/-- SHA-256 initial hash state. -/
def H256 : List Nat :=
  [1779033703, 3144134277, 1013904242, 2773480762,
   1359893119, 2600822924, 528734635, 1541459225]

/-- Big-endian byte decomposition of `v` into `n` bytes. -/
def beBytes (n v : Nat) : List Nat :=
  (List.range n).map (fun i => v / 2 ^ (8 * (n - 1 - i)) % 256)

/-- SHA-256 message padding: `0x80`, zeros to 56 mod 64, then the 64-bit
big-endian bit length. -/
def padBytes (m : List Nat) : List Nat :=
  m ++ [128] ++ List.replicate ((119 - m.length % 64) % 64) 0
    ++ beBytes 8 (8 * m.length)

/-- Split a byte list into 64-byte blocks (fuel-indexed; fuel `bs.length`
always suffices). -/
def chunks64 : Nat → List Nat → List (List Nat)
  | 0, _ => []
  | _, [] => []
  | fuel + 1, bs => bs.take 64 :: chunks64 fuel (bs.drop 64)

/-- The sixteen big-endian 32-bit words of a 64-byte block. -/
def toWords (block : List Nat) : List Nat :=
  (List.range 16).map (fun i =>
    block.getD (4 * i) 0 * 16777216 + block.getD (4 * i + 1) 0 * 65536
      + block.getD (4 * i + 2) 0 * 256 + block.getD (4 * i + 3) 0)

/-- Message-schedule extension step functions. -/
def smallSigma0 (x : Nat) : Nat := rotr x 7 ^^^ rotr x 18 ^^^ x / 8

/-- Second message-schedule sigma. -/
def smallSigma1 (x : Nat) : Nat := rotr x 17 ^^^ rotr x 19 ^^^ x / 1024

/-- Extend the 16 block words to the 64-entry message schedule. -/
def extendWords : Nat → List Nat → List Nat
  | 0, acc => acc
  | k + 1, acc =>
      let t := acc.length
      extendWords k (acc ++ [w32 (smallSigma1 (acc.getD (t - 2) 0)
        + acc.getD (t - 7) 0 + smallSigma0 (acc.getD (t - 15) 0)
        + acc.getD (t - 16) 0)])

/-- One SHA-256 compression round on the eight-word state. -/
def shaRound (st : List Nat) (kt wt : Nat) : List Nat :=
  let a := st.getD 0 0
  let b := st.getD 1 0
  let c := st.getD 2 0
  let d := st.getD 3 0
  let e := st.getD 4 0
  let f := st.getD 5 0
  let g := st.getD 6 0
  let hh := st.getD 7 0
  let s1 := rotr e 6 ^^^ rotr e 11 ^^^ rotr e 25
  let ch := (e &&& f) ^^^ ((4294967295 - e) &&& g)
  let t1 := w32 (hh + s1 + ch + kt + wt)
  let s0 := rotr a 2 ^^^ rotr a 13 ^^^ rotr a 22
  let mj := (a &&& b) ^^^ (a &&& c) ^^^ (b &&& c)
  let t2 := w32 (s0 + mj)
  [w32 (t1 + t2), a, b, c, w32 (d + t1), e, f, g]

/-- SHA-256 compression of one 64-byte block into the running state. -/
def compressBlock (st : List Nat) (block : List Nat) : List Nat :=
  let ws := extendWords 48 (toWords block)
  let st2 := (K256.zip ws).foldl (fun s p => shaRound s p.1 p.2) st
  (List.range 8).map (fun i => w32 (st.getD i 0 + st2.getD i 0))

/-- SHA-256 of a byte list, as the 32-byte digest. -/
def sha256Bytes (m : List Nat) : List Nat :=
  ((chunks64 (padBytes m).length (padBytes m)).foldl compressBlock H256).flatMap
    (beBytes 4)

/-- Lower-case hex digit. -/
def hexChar (n : Nat) : Char :=
  if n < 10 then Char.ofNat (48 + n) else Char.ofNat (87 + n)

/-- `hashlib.sha256(...).hexdigest()` of a byte list. -/
def sha256Hex (m : List Nat) : List Char :=
  (sha256Bytes m).flatMap (fun b => [hexChar (b / 16), hexChar (b % 16)])

/-- UTF-8 encoding of one scalar value. -/
def utf8Bytes (c : Char) : List Nat :=
  let n := c.toNat
  if n < 128 then [n]
  else if n < 2048 then [192 + n / 64, 128 + n % 64]
  else if n < 65536 then [224 + n / 4096, 128 + n / 64 % 64, 128 + n % 64]
  else [240 + n / 262144, 128 + n / 4096 % 64, 128 + n / 64 % 64, 128 + n % 64]

/-- `str.encode("utf-8")`: Lean scalars exclude surrogates, so the
`errors="replace"` path never fires. -/
def utf8Encode (cs : List Char) : List Nat := cs.flatMap utf8Bytes

/-- Python decimal rendering of a nonnegative integer (fuel-indexed; fuel `n`
always suffices). -/
def natDecimalGo : Nat → Nat → List Char
  | 0, n => [Char.ofNat (48 + n % 10)]
  | fuel + 1, n =>
      if n < 10 then [Char.ofNat (48 + n)]
      else natDecimalGo fuel (n / 10) ++ [Char.ofNat (48 + n % 10)]

/-- `f"{counter}"` for the placeholder counter. -/
def natDecimal (n : Nat) : List Char := natDecimalGo n n

/-- The hash preimage `f"{counter}\n{source_for_render}"` (line 1748).  Both
insertions of one identical source share the same deterministic
`source_for_render`, so it is a parameter here. -/
def seedInput (counter : Nat) (sourceForRender : List Char) : List Char :=
  natDecimal counter ++ '\n' :: sourceForRender

/-- The uniqueness seed (lines 1747-1751): the first 16 hex digits of the
SHA-256 of the UTF-8 encoded preimage. -/
def mermaidSeed (counter : Nat) (sourceForRender : List Char) : List Char :=
  (sha256Hex (utf8Encode (seedInput counter sourceForRender))).take 16


/-- Decimal value of a digit string (left inverse of `natDecimal`). -/
def decVal (l : List Char) : Nat :=
  l.foldl (fun a c => a * 10 + (c.toNat - 48)) 0

/-- `decVal` is computed digit by digit from an arbitrary accumulator. -/
theorem decVal_foldl_append (l : List Char) (c : Char) (a : Nat) :
    (l ++ [c]).foldl (fun a c => a * 10 + (c.toNat - 48)) a
      = (l.foldl (fun a c => a * 10 + (c.toNat - 48)) a) * 10 + (c.toNat - 48) := by
  rw [List.foldl_append]
  rfl

/-- The code point of a digit character. -/
theorem toNat_ofNat_digit (d : Nat) (h : d < 10) :
    (Char.ofNat (48 + d)).toNat = 48 + d := by
  interval_cases d <;> decide

/-- `decVal` inverts the fuelled decimal rendering. -/
theorem natDecimalGo_val : ∀ (fuel n : Nat), n ≤ fuel →
    decVal (natDecimalGo fuel n) = n := by
  intro fuel
  induction fuel with
  | zero =>
    intro n hn
    have : n = 0 := by omega
    subst this
    decide
  | succ fuel ih =>
    intro n hn
    rw [natDecimalGo]
    by_cases h10 : n < 10
    · rw [if_pos h10]
      show 0 * 10 + ((Char.ofNat (48 + n)).toNat - 48) = n
      rw [toNat_ofNat_digit n h10]
      omega
    · rw [if_neg h10]
      have hdiv : n / 10 ≤ fuel := by omega
      unfold decVal
      rw [decVal_foldl_append]
      have := ih (n / 10) hdiv
      unfold decVal at this
      rw [this, toNat_ofNat_digit (n % 10) (by omega)]
      omega

/-- The decimal rendering of the counter is injective. -/
theorem natDecimal_inj (m n : Nat) (h : natDecimal m = natDecimal n) : m = n := by
  have hm := natDecimalGo_val m m (le_refl m)
  have hn := natDecimalGo_val n n (le_refl n)
  unfold natDecimal at h
  rw [h] at hm
  omega

/-- Every scalar value is below the Unicode bound. -/
theorem char_toNat_lt (c : Char) : c.toNat < 1114112 := by
  have h := c.valid
  rcases h with h | h
  · have : c.val.toNat < 55296 := h
    exact Nat.lt_trans this (by omega)
  · exact h.2

/-- Injective packing of a character list into a natural number. -/
def encodeChars : List Char → Nat
  | [] => 0
  | c :: r => (c.toNat + 1) + 1114113 * encodeChars r

/-- `encodeChars` is injective. -/
theorem encodeChars_inj : ∀ (l1 l2 : List Char),
    encodeChars l1 = encodeChars l2 → l1 = l2 := by
  intro l1
  induction l1 with
  | nil =>
    intro l2 h
    cases l2 with
    | nil => rfl
    | cons c r =>
      rw [encodeChars, encodeChars] at h
      omega
  | cons c1 r1 ih =>
    intro l2 h
    cases l2 with
    | nil =>
      rw [encodeChars, encodeChars] at h
      omega
    | cons c2 r2 =>
      rw [encodeChars, encodeChars] at h
      have hb1 := char_toNat_lt c1
      have hb2 := char_toNat_lt c2
      have hc : c1.toNat = c2.toNat ∧ encodeChars r1 = encodeChars r2 := by
        constructor <;> omega
      have hcc : c1 = c2 := Char.ext (UInt32.ext hc.1)
      rw [hcc, ih r2 hc.2]

/-- `encodeChars` is bounded exponentially in the length. -/
theorem encodeChars_lt : ∀ (l : List Char),
    encodeChars l < 1114113 ^ (l.length + 1) := by
  intro l
  induction l with
  | nil => simp [encodeChars]
  | cons c r ih =>
    rw [encodeChars]
    have hb := char_toNat_lt c
    have hpow : 1114113 ^ (r.length + 2) = 1114113 * 1114113 ^ (r.length + 1) := by
      rw [pow_succ, Nat.mul_comm]
    rw [List.length_cons]
    have : r.length + 1 + 1 = r.length + 2 := rfl
    rw [this, hpow]
    omega

/-- The seed is at most 16 characters. -/
theorem mermaidSeed_length_le (c : Nat) (src : List Char) :
    (mermaidSeed c src).length ≤ 16 := by
  unfold mermaidSeed
  exact List.length_take_le _ _

/-- **C8 (counterexample).** Seeds live in a finite space while counters are
unbounded, so distinctness of seeds for every pair of distinct counter values
is impossible: some two different counters give equal seeds for the same
source. -/
theorem mermaid_seed_not_counter_injective :
    ¬ ∀ (c1 c2 : Nat), c1 ≠ c2 →
        mermaidSeed c1 ("graph TD").data ≠ mermaidSeed c2 ("graph TD").data := by
  intro hall
  have hf : ∀ c : Nat,
      encodeChars (mermaidSeed c ("graph TD").data) < 1114113 ^ 17 := by
    intro c
    refine lt_of_lt_of_le (encodeChars_lt _) ?_
    refine Nat.pow_le_pow_right (by omega) ?_
    have := mermaidSeed_length_le c ("graph TD").data
    omega
  obtain ⟨c1, c2, hne, heq⟩ := Finite.exists_ne_map_eq_of_infinite
    (fun c : Nat => (⟨encodeChars (mermaidSeed c ("graph TD").data), hf c⟩
      : Fin (1114113 ^ 17)))
  exact hall c1 c2 hne (encodeChars_inj _ _ (congrArg Fin.val heq))

/-- **C8 (amended).** Two insertions with identical rendered source and
different counter values always hash different preimages, so their seeds are
equal exactly when the two distinct preimages collide on the first 64 bits of
SHA-256. -/
theorem mermaid_seed_distinct_preimages (src : List Char) (c1 c2 : Nat)
    (h : c1 ≠ c2) :
    seedInput c1 src ≠ seedInput c2 src
    ∧ (mermaidSeed c1 src ≠ mermaidSeed c2 src ↔
        (sha256Hex (utf8Encode (seedInput c1 src))).take 16
          ≠ (sha256Hex (utf8Encode (seedInput c2 src))).take 16) := by
  refine ⟨?_, Iff.rfl⟩
  intro heq
  unfold seedInput at heq
  have hlen := congrArg List.length heq
  simp only [List.length_append, List.length_cons] at hlen
  obtain ⟨hpre, _⟩ := List.append_inj heq (by omega)
  exact h (natDecimal_inj c1 c2 hpre)

theorem mermaid_seed_distinct_preimages_witness :
    seedInput 1 ("g").data ≠ seedInput 2 ("g").data
    ∧ (mermaidSeed 1 ("g").data ≠ mermaidSeed 2 ("g").data ↔
        (sha256Hex (utf8Encode (seedInput 1 ("g").data))).take 16
          ≠ (sha256Hex (utf8Encode (seedInput 2 ("g").data))).take 16) :=
  mermaid_seed_distinct_preimages ("g").data 1 2 (by decide)

end ExportDoc
